import Mathlib

/-!
Verification of the constraint-system orchestration layer of the binius
repository (crates/core/src/constraint_system and crates/core/src/oracle),
as a shallow embedding in Lean 4.

Rust conventions are modelled as follows:
* `Result<T, Error>` functions that can additionally panic (slice indexing
  out of bounds, `unwrap`, `todo!`) are embedded as `RRes Err T`, a
  three-valued result with an explicit `panic` outcome;
* infallible field arithmetic is parametrised over an arbitrary
  `CommRing`/`Field` with decidable equality (the concrete field in the
  sources is the binary tower field `B128`);
* `HashMap<Vec<F>, i64>` is embedded as an association list with the same
  insert-or-update semantics; iteration-order-independent facts only are
  proved about it;
* byte streams (`std::io`) are embedded as `List Nat` of byte values, with
  readers returning `Option` (`none` covers both `io::Error` and panics).
-/

namespace Binius

/-- Rust result with an explicit panic outcome: `panic` models an actual
Rust panic (out-of-bounds indexing, `unwrap` failure, `todo!`), `err` a
returned `Err`, `ok` a returned `Ok`. -/
inductive RRes (ε : Type u) (α : Type v) where
  | panic : RRes ε α
  | err (e : ε) : RRes ε α
  | ok (a : α) : RRes ε α
deriving Repr, DecidableEq

namespace RRes

def bind : RRes ε α → (α → RRes ε β) → RRes ε β
  | .panic, _ => .panic
  | .err e, _ => .err e
  | .ok a, f => f a

instance : Monad (RRes ε) where
  pure := .ok
  bind := RRes.bind

@[simp] theorem bind_ok (a : α) (f : α → RRes ε β) : bind (.ok a) f = f a := rfl

@[simp] theorem bind_err (e : ε) (f : α → RRes ε β) : bind (.err e) f = .err e := rfl

@[simp] theorem bind_panic (f : α → RRes ε β) : bind (.panic : RRes ε α) f = .panic := rfl

@[simp] theorem monad_bind_eq_bind (x : RRes ε α) (f : α → RRes ε β) :
    (x >>= f) = bind x f := rfl

@[simp] theorem pure_eq_ok (a : α) : (pure a : RRes ε α) = .ok a := rfl

end RRes

/-- `OracleId` from `oracle/multilinear.rs`: identifier of a multilinear
oracle in a `MultilinearOracleSet` (a `usize` in the source). -/
def OracleId := Nat
deriving DecidableEq, Repr

instance : OfNat OracleId n := ⟨(n : Nat)⟩

/-- `ChannelId` from `constraint_system/channel.rs` (a `usize`). -/
def ChannelId := Nat
deriving DecidableEq, Repr

instance : OfNat ChannelId n := ⟨(n : Nat)⟩

/-- `FlushDirection` from `constraint_system/channel.rs`. -/
inductive FlushDirection where
  | push
  | pull
deriving Repr, DecidableEq

/-- `Flush` from `constraint_system/channel.rs`. The `count` and
`multiplicity` fields are `usize`/`u64` in the source, embedded as `Nat`. -/
structure Flush where
  oracles : List Nat
  channelId : Nat
  direction : FlushDirection
  count : Nat
  multiplicity : Nat
deriving Repr, DecidableEq

/-- `Boundary<F>` from `constraint_system/channel.rs`. -/
structure Boundary (F : Type) where
  values : List F
  channelId : Nat
  direction : FlushDirection
  multiplicity : Nat
deriving Repr, DecidableEq

/-- The error variants of `constraint_system::error::Error` (including the
wrapped `VerificationError` and `oracle::Error`/`PolynomialError` variants)
that are constructed by the sources under verification.  The enum
declarations themselves are in modules that are not part of the sampled
sources; each variant below is reconstructed from its construction sites in
`channel.rs`, `verify.rs` and `oracle/multilinear.rs` and from the error
taxonomy of the specification. -/
inductive Err where
  | channelIdOutOfRange (max got : Nat)
  | channelFlushWidthMismatch (expected got : Nat)
  | channelFlushNvarsMismatch (expected got : Nat)
  | flushCountExceedsOracleSize (id : Nat) (count : Nat)
  | channelUnbalanced (id : Nat)
  | incorrectNumberOfFlushProducts
  | emptyFlushOracles
  | zeros
  | unconstrainedBatch (batchId : Nat)
  | transcriptShort
  | invalidOracleId (id : Nat)
  | towerLevelTooHigh (towerLevel : Nat)
  | invalidBlockSize (nVars : Nat)
  | invalidShiftOffset (maxShiftOffset shiftOffset : Nat)
  | notEnoughVarsForPacking (nVars logDegree : Nat)
  | invalidProjection (nVars valuesLen : Nat)
  | incorrectNumberOfVariables (expected : Nat)
deriving Repr, DecidableEq

/-! ## Channel ledger (`constraint_system/channel.rs`) -/

/-- The private `Channel<F>` struct of `channel.rs`: a fixed-on-first-use
tuple width together with a map from observed row tuples to signed running
multiplicities.  The source's `HashMap<Vec<F>, i64>` is embedded as an
association list. -/
structure Channel (F : Type) where
  width : Option Nat
  multiplicities : List (List F × Int)
deriving Repr, DecidableEq

variable {F : Type}

/-- `*self.multiplicities.entry(values).or_default() += delta`: update the
association list at key `values` by adding `delta`, inserting the key with
default value `0` if absent. -/
def addEntry [DecidableEq F] (m : List (List F × Int)) (values : List F) (delta : Int) :
    List (List F × Int) :=
  match m with
  | [] => [(values, delta)]
  | (k, v) :: rest =>
    if k = values then (k, v + delta) :: rest
    else (k, v) :: addEntry rest values delta

/-- Lookup in the multiplicity map, `0` when the tuple is absent. -/
def getEntry [DecidableEq F] (m : List (List F × Int)) (values : List F) : Int :=
  match m with
  | [] => 0
  | (k, v) :: rest => if k = values then v else getEntry rest values

/-- The signed per-row contribution of `Channel::flush`:
`multiplicity * (+1 for push, -1 for pull)`. -/
def flushDelta (direction : FlushDirection) (multiplicity : Nat) : Int :=
  (multiplicity : Int) * (match direction with
    | .pull => -1
    | .push => 1)

/-- `Channel::flush` from `channel.rs`: fixes the tuple width on first use,
errors on a later width mismatch, and otherwise adds the signed multiplicity
to the entry of `values`. -/
def Channel.flush [DecidableEq F] (c : Channel F) (direction : FlushDirection)
    (multiplicity : Nat) (values : List F) : RRes Err (Channel F) :=
  match c.width with
  | none =>
    .ok { width := some values.length,
          multiplicities := addEntry c.multiplicities values (flushDelta direction multiplicity) }
  | some w =>
    if w ≠ values.length then
      .err (.channelFlushWidthMismatch w values.length)
    else
      .ok { c with
            multiplicities := addEntry c.multiplicities values (flushDelta direction multiplicity) }

/-- `Channel::is_balanced`: every recorded tuple has net multiplicity 0. -/
def Channel.isBalanced (c : Channel F) : Bool :=
  c.multiplicities.all (fun e => e.2 = 0)

/-- The witness collaborator (`witness.rs`): `get_multilin_poly` resolves an
oracle id to its multilinear evaluation table.  Only the interface used by
`validate_witness` is embedded: the number of variables and total hypercube
evaluation (`evaluate_on_hypercube`). -/
structure WitnessPoly (F : Type) where
  nVars : Nat
  evals : Nat → F

/-- A witness index maps oracle ids to multilinear polynomials; `none`
models an absent entry, on which `validate_witness`'s `.unwrap()` panics. -/
def WitnessIndex (F : Type) := Nat → Option (WitnessPoly F)

/-- The state of all channels `0..=max_channel_id` during
`validate_witness`, embedded as a total function from channel id. -/
def Channels (F : Type) := Nat → Channel F

def Channels.init : Channels F := fun _ => { width := none, multiplicities := [] }

def Channels.set (st : Channels F) (c : Nat) (ch : Channel F) : Channels F :=
  fun i => if i = c then ch else st i

/-- The boundary loop body of `validate_witness`: range-check the channel id
and fold the boundary tuple into its channel. -/
def applyBoundary [DecidableEq F] (maxChannelId : Nat) (st : Channels F) (b : Boundary F) :
    RRes Err (Channels F) :=
  if b.channelId > maxChannelId then
    .err (.channelIdOutOfRange maxChannelId b.channelId)
  else do
    let c ← (st b.channelId).flush b.direction b.multiplicity b.values
    pure (st.set b.channelId c)

/-- The inner n_vars-consistency loop of `validate_witness`: every
polynomial of a single flush must have the same number of variables as the
first one; the first offender is reported. -/
def checkNvars [DecidableEq F] (nVars : Nat) : List (WitnessPoly F) → RRes Err Unit
  | [] => .ok ()
  | p :: rest =>
    if p.nVars ≠ nVars then .err (.channelFlushNvarsMismatch nVars p.nVars)
    else checkNvars nVars rest

/-- The row-replay loop of `validate_witness`: for `i in 0..count`, evaluate
every flushed polynomial at hypercube point `i` and flush the row tuple. -/
def flushRows [DecidableEq F] (ch : Channel F) (direction : FlushDirection)
    (multiplicity : Nat) (polys : List (WitnessPoly F)) (count : Nat) :
    RRes Err (Channel F) :=
  (List.range count).foldlM
    (fun c i => c.flush direction multiplicity (polys.map (fun p => p.evals i))) ch

/-- The `oracles.iter().map(|id| witness.get_multilin_poly(*id).unwrap())`
collection step of `validate_witness`: resolve every oracle id in order,
`none` when any entry is missing (on which the source `unwrap` panics). -/
def resolveAll (witness : WitnessIndex F) : List Nat → Option (List (WitnessPoly F))
  | [] => some []
  | id :: rest =>
    match witness id, resolveAll witness rest with
    | some p, some ps => some (p :: ps)
    | _, _ => none

/-- The flush loop body of `validate_witness`: range-check the channel id,
resolve every flushed oracle in the witness (panicking on a missing entry,
as the source `unwrap`s), check n_vars consistency and the count bound, and
replay the rows into the channel.  A flush with no oracles is skipped. -/
def applyFlush [DecidableEq F] (witness : WitnessIndex F) (maxChannelId : Nat)
    (st : Channels F) (f : Flush) : RRes Err (Channels F) :=
  if f.channelId > maxChannelId then
    .err (.channelIdOutOfRange maxChannelId f.channelId)
  else
    match resolveAll witness f.oracles with
    | none => .panic
    | some polys =>
      match polys, f.oracles with
      | [], _ => .ok st
      | firstPoly :: restPolys, firstOracle :: _ => do
        checkNvars firstPoly.nVars restPolys
        if f.count > 2 ^ firstPoly.nVars then
          .err (.flushCountExceedsOracleSize firstOracle f.count)
        else do
          let ch ← flushRows (st f.channelId) f.direction f.multiplicity polys f.count
          pure (st.set f.channelId ch)
      | _ :: _, [] => .panic

/-- The final balance loop of `validate_witness`: report the first channel
id in `0..=max_channel_id` whose channel is unbalanced. -/
def checkBalanced (st : Channels F) : List Nat → RRes Err Unit
  | [] => .ok ()
  | id :: rest =>
    if (st id).isBalanced then checkBalanced st rest
    else .err (.channelUnbalanced id)

/-- `validate_witness` from `constraint_system/channel.rs`: fold all
boundaries into fresh channels, then replay every flush row by row, then
require every channel in `0..=max_channel_id` to be balanced. -/
def validateWitness [DecidableEq F] (witness : WitnessIndex F) (flushes : List Flush)
    (boundaries : List (Boundary F)) (maxChannelId : Nat) : RRes Err Unit := do
  let st ← boundaries.foldlM (applyBoundary maxChannelId) (Channels.init : Channels F)
  let st ← flushes.foldlM (applyFlush witness maxChannelId) st
  checkBalanced st (List.range (maxChannelId + 1))

/-! ## Oracle graph (`oracle/multilinear.rs`) -/

/-- `ProjectionVariant` from `oracle/multilinear.rs`. -/
inductive ProjectionVariant where
  | firstVars
  | lastVars
deriving Repr, DecidableEq

/-- `ShiftVariant` from `oracle/multilinear.rs`. -/
inductive ShiftVariant where
  | circularLeft
  | logicalLeft
  | logicalRight
deriving Repr, DecidableEq

/-- `MultilinearPolyOracle<F>` from `oracle/multilinear.rs`.  The wrapper
structs `Projected`, `Shifted`, `Packed` and `LinearCombination` are
flattened into the constructor arguments.  A transparent oracle's
`Arc<dyn MultivariatePoly>` is represented by the two observables the graph
layer uses: the poly's `n_vars()` and `binary_tower_level()`. -/
inductive MultilinearPolyOracle (F : Type) where
  | transparent (id : Nat) (polyNVars : Nat) (polyTowerLevel : Nat) (name : Option String)
  | committed (oracleId : Nat) (nVars : Nat) (towerLevel : Nat) (name : Option String)
  | repeating (id : Nat) (inner : MultilinearPolyOracle F) (logCount : Nat) (name : Option String)
  | projected (id : Nat) (inner : MultilinearPolyOracle F) (values : List F)
      (projectionVariant : ProjectionVariant) (name : Option String)
  | shifted (id : Nat) (inner : MultilinearPolyOracle F) (shiftOffset blockSize : Nat)
      (shiftVariant : ShiftVariant) (name : Option String)
  | packed (id : Nat) (inner : MultilinearPolyOracle F) (logDegree : Nat) (name : Option String)
  | linearCombination (id : Nat) (nVars : Nat) (offset : F)
      (inner : List (MultilinearPolyOracle F × F)) (name : Option String)
  | zeroPadded (id : Nat) (inner : MultilinearPolyOracle F) (nVars : Nat) (name : Option String)

/-- `MultilinearPolyOracle::n_vars`.  The `usize` subtractions for
`projected` and `packed` are truncated `Nat` subtractions; the construction
preconditions (`values.len() <= inner.n_vars`, `log_degree <= inner.n_vars`)
keep them away from underflow exactly as in the source. -/
def MultilinearPolyOracle.nVars : MultilinearPolyOracle F → Nat
  | .transparent _ polyNVars _ _ => polyNVars
  | .committed _ n _ _ => n
  | .repeating _ inner logCount _ => inner.nVars + logCount
  | .projected _ inner values _ _ => inner.nVars - values.length
  | .shifted _ inner _ _ _ _ => inner.nVars
  | .packed _ inner logDegree _ => inner.nVars - logDegree
  | .linearCombination _ n _ _ _ => n
  | .zeroPadded _ _ n _ => n

/-- `MultilinearOracleSet<F>`: the append-only vector of oracle
descriptors. -/
structure MultilinearOracleSet (F : Type) where
  oracles : List (MultilinearPolyOracle F)

/-- `MultilinearOracleSet::new`. -/
def MultilinearOracleSet.empty : MultilinearOracleSet F := { oracles := [] }

/-- `MultilinearOracleSet::size`. -/
def MultilinearOracleSet.size (s : MultilinearOracleSet F) : Nat :=
  s.oracles.length

/-- `MultilinearOracleSet::is_valid_oracle_id`. -/
def MultilinearOracleSet.isValidOracleId (s : MultilinearOracleSet F) (id : Nat) : Bool :=
  id < s.oracles.length

/-- `MultilinearOracleSet::n_vars(id)`, which indexes `self.oracles[id]`:
`none` models the Rust panic on an out-of-bounds id. -/
def MultilinearOracleSet.nVarsAt (s : MultilinearOracleSet F) (id : Nat) : Option Nat :=
  (s.oracles.get? id).map MultilinearPolyOracle.nVars

/-- `MultilinearOracleSet::add_to_set`: push the descriptor built from the
fresh id (the current length) and return the id. -/
def MultilinearOracleSet.addToSet (s : MultilinearOracleSet F)
    (oracle : Nat → MultilinearPolyOracle F) : MultilinearOracleSet F × Nat :=
  let id := s.oracles.length
  ({ oracles := s.oracles ++ [oracle id] }, id)

/-- `add_committed` (via `MultilinearOracleSetAddition::committed`), with the
optional `add_named` name as an explicit argument. -/
def MultilinearOracleSet.addCommitted (s : MultilinearOracleSet F)
    (nVars towerLevel : Nat) (name : Option String) : MultilinearOracleSet F × Nat :=
  s.addToSet (fun oracleId => .committed oracleId nVars towerLevel name)

/-- `add_transparent`: requires the evaluator's tower level not to exceed
`F::TOWER_LEVEL` (passed as `fTowerLevel`); `TransparentPolyOracle::new`
re-checks the same bound, which collapses into one test. -/
def MultilinearOracleSet.addTransparent (s : MultilinearOracleSet F)
    (fTowerLevel polyNVars polyTowerLevel : Nat) (name : Option String) :
    RRes Err (MultilinearOracleSet F × Nat) :=
  if polyTowerLevel > fTowerLevel then .err (.towerLevelTooHigh polyTowerLevel)
  else .ok (s.addToSet (fun id => .transparent id polyNVars polyTowerLevel name))

/-- `add_repeating`: validates the inner handle, then clones the inner
descriptor into the new one. -/
def MultilinearOracleSet.addRepeating (s : MultilinearOracleSet F)
    (innerId logCount : Nat) (name : Option String) :
    RRes Err (MultilinearOracleSet F × Nat) :=
  if h : innerId < s.oracles.length then
    .ok (s.addToSet (fun id => .repeating id (s.oracles.get ⟨innerId, h⟩) logCount name))
  else .err (.invalidOracleId innerId)

/-- `add_shifted`: validates the inner handle, `block_bits <= inner.n_vars`
and `0 < offset < 2^block_bits` (`Shifted::new` re-checks the latter two,
which collapses into one test each). -/
def MultilinearOracleSet.addShifted (s : MultilinearOracleSet F)
    (innerId offset blockBits : Nat) (variant : ShiftVariant) (name : Option String) :
    RRes Err (MultilinearOracleSet F × Nat) :=
  if h : innerId < s.oracles.length then
    let inner := s.oracles.get ⟨innerId, h⟩
    if blockBits > inner.nVars then .err (.invalidBlockSize inner.nVars)
    else if offset = 0 ∨ offset ≥ 2 ^ blockBits then
      .err (.invalidShiftOffset (2 ^ blockBits - 1) offset)
    else .ok (s.addToSet (fun id => .shifted id inner offset blockBits variant name))
  else .err (.invalidOracleId innerId)

/-- `add_packed`: validates the inner handle and
`log_degree <= inner.n_vars`. -/
def MultilinearOracleSet.addPacked (s : MultilinearOracleSet F)
    (innerId logDegree : Nat) (name : Option String) :
    RRes Err (MultilinearOracleSet F × Nat) :=
  if h : innerId < s.oracles.length then
    let inner := s.oracles.get ⟨innerId, h⟩
    if logDegree > inner.nVars then
      .err (.notEnoughVarsForPacking inner.nVars logDegree)
    else .ok (s.addToSet (fun id => .packed id inner logDegree name))
  else .err (.invalidOracleId innerId)

/-- `add_projected`.  NOTE: unlike every other derived-oracle constructor,
the source does not validate `inner_id` before calling
`self.mut_ref.n_vars(inner_id)`, which indexes the oracle vector; an
out-of-range handle therefore panics instead of returning
`Error::InvalidOracleId`.  (`Projected::new` re-checks
`values.len() <= n_vars`, which collapses into one test.) -/
def MultilinearOracleSet.addProjected (s : MultilinearOracleSet F)
    (innerId : Nat) (values : List F) (variant : ProjectionVariant) (name : Option String) :
    RRes Err (MultilinearOracleSet F × Nat) :=
  match s.oracles.get? innerId with
  | none => .panic
  | some inner =>
    if values.length > inner.nVars then
      .err (.invalidProjection inner.nVars values.length)
    else .ok (s.addToSet (fun id => .projected id inner values variant name))

/-- The per-item loop of `linear_combination_with_offset`: validate each
inner handle and its variable count, resolving handles to descriptors. -/
def resolveLinCombInner (s : MultilinearOracleSet F) (nVars : Nat) :
    List (Nat × F) → RRes Err (List (MultilinearPolyOracle F × F))
  | [] => .ok []
  | (innerId, coeff) :: rest =>
    if h : innerId < s.oracles.length then
      let inner := s.oracles.get ⟨innerId, h⟩
      if inner.nVars ≠ nVars then .err (.incorrectNumberOfVariables nVars)
      else do
        let others ← resolveLinCombInner s nVars rest
        pure ((inner, coeff) :: others)
    else .err (.invalidOracleId innerId)

/-- `add_linear_combination_with_offset` (used both directly and through
`add_linear_combination`, which passes `offset = 0`).
`LinearCombination::new` re-checks the n_vars equalities already validated
per item, which collapses into one test. -/
def MultilinearOracleSet.addLinearCombinationWithOffset (s : MultilinearOracleSet F)
    (nVars : Nat) (offset : F) (inner : List (Nat × F)) (name : Option String) :
    RRes Err (MultilinearOracleSet F × Nat) := do
  let resolved ← resolveLinCombInner s nVars inner
  pure (s.addToSet (fun id => .linearCombination id nVars offset resolved name))

/-- `add_zero_padded`: validates the inner handle and
`inner.n_vars <= n_vars`. -/
def MultilinearOracleSet.addZeroPadded (s : MultilinearOracleSet F)
    (innerId nVars : Nat) (name : Option String) :
    RRes Err (MultilinearOracleSet F × Nat) :=
  if h : innerId < s.oracles.length then
    let inner := s.oracles.get ⟨innerId, h⟩
    if inner.nVars > nVars then
      .err (.incorrectNumberOfVariables inner.nVars)
    else .ok (s.addToSet (fun id => .zeroPadded id inner nVars name))
  else .err (.invalidOracleId innerId)

/-! ## Verifier channel balance (`constraint_system/verify.rs`,
`verify_channels_balance`) -/

/-- The inner fold of `verify_channels_balance` over one boundary's values:
starting from `(permutation_challenges[channel_id], 1)`, each value `v`
turns `(sum, mixing)` into `(sum + mixing * v, mixing * mixing_challenge)`;
the final `sum` is the mixed value. -/
def mixedValue [CommRing F] (permChallenge mixingChallenge : F) (values : List F) : F :=
  (values.foldl (fun sm v => (sm.1 + sm.2 * v, sm.2 * mixingChallenge))
    (permChallenge, (1 : F))).1

/-- The boundary fold of `verify_channels_balance`: accumulate
`(pull_product, push_product)` over all boundaries of the current channel,
each contributing its mixed value raised to its multiplicity. -/
def boundaryProducts [CommRing F] (boundaries : List (Boundary F))
    (mixingChallenge : F) (permutationChallenges : Nat → F) (channelId : Nat) : F × F :=
  boundaries.foldl
    (fun pp b =>
      if b.channelId = channelId then
        let mixedWithMult :=
          mixedValue (permutationChallenges channelId) mixingChallenge b.values ^ b.multiplicity
        match b.direction with
        | .pull => (pp.1 * mixedWithMult, pp.2)
        | .push => (pp.1, pp.2 * mixedWithMult)
      else pp)
    (1, 1)

theorem lengthDropWhileLe (p : α → Bool) (l : List α) :
    (l.dropWhile p).length ≤ l.length := by
  induction l with
  | nil => simp [List.dropWhile]
  | cons a l ih =>
    rw [List.dropWhile_cons]
    by_cases h : p a
    · simp only [h, if_true]
      exact Nat.le_succ_of_le ih
    · simp [h]

/-- The `while let Some(..) = flush_iter.peek()` loop of
`verify_channels_balance`: take the run of flushes sharing the peeked
channel id, fold their claimed products on top of the boundary products,
compare, and continue with the remaining flushes. -/
def vcbLoop [CommRing F] [DecidableEq F] (boundaries : List (Boundary F))
    (mixingChallenge : F) (permutationChallenges : Nat → F) :
    List (Flush × F) → RRes Err Unit
  | [] => .ok ()
  | (f, p) :: rest =>
    let channelId := f.channelId
    let bp := boundaryProducts boundaries mixingChallenge permutationChallenges channelId
    let group := (f, p) :: rest.takeWhile (fun fp => fp.1.channelId = channelId)
    let prods := group.foldl
      (fun pp fp =>
        match fp.1.direction with
        | .pull => (pp.1 * fp.2, pp.2)
        | .push => (pp.1, pp.2 * fp.2)) bp
    if prods.1 ≠ prods.2 then .err (.channelUnbalanced channelId)
    else vcbLoop boundaries mixingChallenge permutationChallenges
      (rest.dropWhile (fun fp => fp.1.channelId = channelId))
termination_by l => l.length
decreasing_by
  simp only [List.length_cons]
  exact Nat.lt_succ_of_le (lengthDropWhileLe _ _)

/-- `verify_channels_balance` from `verify.rs`: reject on a flush-product
count mismatch, then run the per-channel product comparison loop over
`flushes.zip(flush_products)`.  The permutation challenges are embedded as a
total function from channel id (the source indexes a slice whose length the
caller guarantees). -/
def verifyChannelsBalance [CommRing F] [DecidableEq F] (flushes : List Flush)
    (flushProducts : List F) (boundaries : List (Boundary F))
    (mixingChallenge : F) (permutationChallenges : Nat → F) : RRes Err Unit :=
  if flushProducts.length ≠ flushes.length then
    .err .incorrectNumberOfFlushProducts
  else
    vcbLoop boundaries mixingChallenge permutationChallenges (flushes.zip flushProducts)

/-! ## Flush-mixing oracles (`verify.rs`, `make_flush_oracles`) -/

/-- Body of the `while mixing_powers.len() < flush.oracles.len()` loop,
recursing on the number of missing entries (each iteration of the source
loop grows the vector by one, so the loop runs exactly that many times). -/
def extendPowersAux [CommRing F] (mixingChallenge : F) : Nat → List F → List F
  | 0, powers => powers
  | k + 1, powers =>
    match powers.getLast? with
    | some last => extendPowersAux mixingChallenge k (powers ++ [last * mixingChallenge])
    | none => powers

/-- The `while mixing_powers.len() < flush.oracles.len()` loop: extend the
vector of mixing-challenge powers by multiplying the last element.  (On an
empty vector the source's `expect` is unreachable because the vector is
initialised to `vec![F::ONE]` and never shrinks; the embedding returns the
vector unchanged there.) -/
def extendPowers [CommRing F] (mixingChallenge : F) (powers : List F) (n : Nat) : List F :=
  extendPowersAux mixingChallenge (n - powers.length) powers

/-- The per-flush n_vars-consistency loop of `make_flush_oracles`: each
remaining flushed oracle's `n_vars` (a panicking index on an invalid id)
must equal the first oracle's. -/
def checkFlushNvars (s : MultilinearOracleSet F) (nVars : Nat) : List Nat → RRes Err Unit
  | [] => .ok ()
  | id :: rest =>
    match s.nVarsAt id with
    | none => .panic
    | some got =>
      if got ≠ nVars then .err (.channelFlushNvarsMismatch nVars got)
      else checkFlushNvars s nVars rest

/-- The body of `make_flush_oracles` for one flush: require a first oracle,
check n_vars agreement, extend the mixing powers, and add the
linear-combination oracle with the channel's permutation challenge as
offset and the mixing powers as coefficients. -/
def makeOneFlushOracle [CommRing F] (s : MultilinearOracleSet F) (mixingChallenge : F)
    (channelId : Nat) (permChallenge : F) (powers : List F) (f : Flush) :
    RRes Err (MultilinearOracleSet F × List F × Nat) :=
  match f.oracles with
  | [] => .err .emptyFlushOracles
  | firstOracle :: restOracles =>
    match s.nVarsAt firstOracle with
    | none => .panic
    | some nVars => do
      checkFlushNvars s nVars restOracles
      let powers := extendPowers mixingChallenge powers f.oracles.length
      let (s, id) ← s.addLinearCombinationWithOffset nVars permChallenge
        (f.oracles.zip powers) (some ("flush channel_id=" ++ toString channelId))
      pure (s, powers, id)

/-- The `peeking_take_while` run of `make_flush_oracles` for one channel id:
process consecutive flushes with that channel id and return the remaining
flushes for the following channels. -/
def makeFlushOraclesChannel [CommRing F] (mixingChallenge : F) (channelId : Nat)
    (permChallenge : F) :
    MultilinearOracleSet F → List F → List Flush →
    RRes Err (MultilinearOracleSet F × List F × List Nat × List Flush)
  | s, powers, [] => .ok (s, powers, [], [])
  | s, powers, f :: rest =>
    if f.channelId = channelId then do
      let (s, powers, id) ← makeOneFlushOracle s mixingChallenge channelId permChallenge powers f
      let (s, powers, ids, rem) ←
        makeFlushOraclesChannel mixingChallenge channelId permChallenge s powers rest
      pure (s, powers, id :: ids, rem)
    else .ok (s, powers, [], f :: rest)

/-- The outer loop of `make_flush_oracles` over the enumerated permutation
challenges; flushes whose channel id is beyond the challenge list are never
reached by the `peeking_take_while` runs and are silently ignored, exactly
as in the source. -/
def makeFlushOraclesLoop [CommRing F] (mixingChallenge : F) :
    MultilinearOracleSet F → List F → Nat → List F → List Flush →
    RRes Err (MultilinearOracleSet F × List Nat)
  | s, _, _, [], _ => .ok (s, [])
  | s, powers, channelId, permChallenge :: restPerms, flushes => do
    let (s, powers, ids, rem) ←
      makeFlushOraclesChannel mixingChallenge channelId permChallenge s powers flushes
    let (s, ids') ← makeFlushOraclesLoop mixingChallenge s powers (channelId + 1) restPerms rem
    pure (s, ids ++ ids')

/-- `make_flush_oracles` from `verify.rs`: add one flush-mixing
linear-combination oracle per flush, walking the (sorted) flushes channel by
channel, with the mixing-power vector shared across flushes. -/
def makeFlushOracles [CommRing F] (oracles : MultilinearOracleSet F) (flushes : List Flush)
    (mixingChallenge : F) (permutationChallenges : List F) :
    RRes Err (MultilinearOracleSet F × List Nat) :=
  makeFlushOraclesLoop mixingChallenge oracles [1] 0 permutationChallenges flushes

/-! ## Stable sort by key (Rust `sort_by_key` is a stable sort; the verify
pipeline uses it for flushes by channel id and for PCS claims by batch id) -/

def insertByKey (key : α → Nat) (a : α) : List α → List α
  | [] => [a]
  | b :: rest =>
    if key b ≤ key a then b :: insertByKey key a rest
    else a :: b :: rest

/-- Stable insertion sort by a `Nat` key: elements are inserted left to
right, each after all already-placed elements with a smaller-or-equal key,
so the relative order of equal keys is preserved. -/
def sortByKey (key : α → Nat) (l : List α) : List α :=
  l.foldl (fun acc a => insertByKey key a acc) []

/-! ## Fiat-Shamir transcript interaction order (`verify.rs`) -/

/-- One transcript interaction of the verifier: reading a slice of claimed
scalars from the proof data, sampling one challenge, or sampling a vector
of challenges. -/
inductive TEvent where
  | readScalars (n : Nat)
  | sample
  | sampleVec (n : Nat)
deriving Repr, DecidableEq

/-- The verifier's `TranscriptReader` state: the remaining proof scalars, a
challenge stream abstracting the Fiat-Shamir sampler, and the log of
interactions performed so far (the observable protocol contract). -/
structure TState (F : Type) where
  proofData : List F
  challenges : Nat → F
  challengeIdx : Nat
  log : List TEvent

/-- `transcript.read_scalar_slice(n)`: errors when the transcript is
exhausted before `n` scalars are read. -/
def readScalarSlice (n : Nat) (st : TState F) : RRes Err (List F × TState F) :=
  if st.proofData.length < n then .err .transcriptShort
  else .ok (st.proofData.take n,
    { st with proofData := st.proofData.drop n, log := st.log ++ [.readScalars n] })

/-- `transcript.sample()`. -/
def sampleOne (st : TState F) : F × TState F :=
  (st.challenges st.challengeIdx,
    { st with challengeIdx := st.challengeIdx + 1, log := st.log ++ [.sample] })

/-- `transcript.sample_vec(n)`. -/
def sampleVec (n : Nat) (st : TState F) : List F × TState F :=
  ((List.range n).map (fun i => st.challenges (st.challengeIdx + i)),
    { st with challengeIdx := st.challengeIdx + n, log := st.log ++ [.sampleVec n] })

/-- The grand-product setup phase of `verify_with_pcs` (`verify.rs`,
the "Grand product arguments" section): read the claimed non-zero grand
products, reject if any is zero, sample the mixing challenge and one
permutation challenge per channel id `0..=max_channel_id`, sort the flushes
by channel id, build the flush-mixing oracles, and read the claimed flush
grand products.  (`gkr_gpa::construct_grand_product_claims`, called by the
source between the zero check and the sampling, is an external collaborator
that performs no transcript interaction and adds no oracles; it is omitted
here.)  Returns the extended oracle set, the flush oracle ids, the two
product lists, the challenges, and the final transcript state. -/
def grandProductSetup [CommRing F] [DecidableEq F] (oracles : MultilinearOracleSet F)
    (nonZeroOracleIds : List Nat) (flushes : List Flush) (maxChannelId : Nat)
    (st : TState F) :
    RRes Err (MultilinearOracleSet F × List Nat × List F × List F × F × List F × TState F) := do
  let (nonZeroProducts, st) ← readScalarSlice nonZeroOracleIds.length st
  if nonZeroProducts.any (fun c => c = (0 : F)) then
    .err .zeros
  else do
    let (mixingChallenge, st) := sampleOne st
    let (permutationChallenges, st) := sampleVec (maxChannelId + 1) st
    let flushesSorted := sortByKey (fun f => f.channelId) flushes
    let (oracles, flushOracleIds) ←
      makeFlushOracles oracles flushesSorted mixingChallenge permutationChallenges
    let (flushProducts, st) ← readScalarSlice flushOracleIds.length st
    pure (oracles, flushOracleIds, nonZeroProducts, flushProducts,
      mixingChallenge, permutationChallenges, st)

/-! ## PCS claim coverage check (`verify.rs`, after evalcheck) -/

/-- The enumerated loop over sorted PCS claims: position `i` must hold batch
id `i`, otherwise the system is under-constrained. -/
def coverageCheckLoop : Nat → List (Nat × α) → RRes Err Unit
  | _, [] => .ok ()
  | i, (batchId, _) :: rest =>
    if batchId ≠ i then .err (.unconstrainedBatch i)
    else coverageCheckLoop (i + 1) rest

/-- The PCS claim coverage check of `verify_with_pcs`: stable-sort the
claims by batch id, require the sorted batch ids to be exactly
`0, 1, 2, ...` positionally, and require at least as many claims as
committed batches (`oracles.n_batches()`, passed as `nBatches` because the
batch bookkeeping lives outside the sampled sources). -/
def coverageCheck (pcsClaims : List (Nat × α)) (nBatches : Nat) : RRes Err Unit :=
  RRes.bind (coverageCheckLoop 0 (sortByKey (fun c => c.1) pcsClaims)) (fun _ =>
    if (sortByKey (fun c => c.1) pcsClaims).length < nBatches then
      .err (.unconstrainedBatch (sortByKey (fun c => c.1) pcsClaims).length)
    else .ok ())

/-! ## Binary serialization (`mod.rs`, `channel.rs`, `oracle/multilinear.rs`,
`oracle/constraint.rs`, `math/arith_expr.rs`)

Byte streams are `List Nat` with each element a byte value.  Readers return
`Option (value × rest)`; `none` covers both `io::Error` results and panics
(`unwrap`, `unreachable!`, `todo!`) inside the readers/writers.  The target
is 64-bit, so `usize::to_le_bytes` produces 8 bytes.  Field-element
serialization (`SerializeBytes`/`DeserializeBytes`, provided by the
excluded field crate) is abstracted as a pair of functions `ser`/`deser`. -/

def u32le (n : Nat) : List Nat :=
  [n % 256, n / 256 % 256, n / 256 ^ 2 % 256, n / 256 ^ 3 % 256]

def u64le (n : Nat) : List Nat :=
  [n % 256, n / 256 % 256, n / 256 ^ 2 % 256, n / 256 ^ 3 % 256,
   n / 256 ^ 4 % 256, n / 256 ^ 5 % 256, n / 256 ^ 6 % 256, n / 256 ^ 7 % 256]

/-- `usize::to_le_bytes()` on the 64-bit target. -/
def usizeLe (n : Nat) : List Nat := u64le n

/-- `Read::read_exact` into a `k`-byte buffer. -/
def readExact (k : Nat) (bs : List Nat) : Option (List Nat × List Nat) :=
  if bs.length < k then none else some (bs.take k, bs.drop k)

/-- `u{32,64}::from_le_bytes`. -/
def leValue : List Nat → Nat
  | [] => 0
  | b :: rest => b + 256 * leValue rest

def readU32 (bs : List Nat) : Option (Nat × List Nat) :=
  (readExact 4 bs).map (fun p => (leValue p.1, p.2))

def readU64 (bs : List Nat) : Option (Nat × List Nat) :=
  (readExact 8 bs).map (fun p => (leValue p.1, p.2))

def strBytes (s : String) : List Nat :=
  s.toUTF8.toList.map (fun b => b.toNat)

def strFromBytes (l : List Nat) : Option String :=
  String.fromUTF8? (ByteArray.mk (Array.mk (l.map (fun n => UInt8.ofNat n))))

/-- The local `write_name` helper of `MultilinearPolyOracle::write`. -/
def writeName : Option String → List Nat
  | some s => u32le 1 ++ u32le (strBytes s).length ++ strBytes s
  | none => u32le 0

/-- The local `read_name` helper of `MultilinearPolyOracle::read`. -/
def readName (bs : List Nat) : Option (Option String × List Nat) := do
  let (tag, bs) ← readU32 bs
  if tag = 1 then do
    let (len, bs) ← readU32 bs
    let (buf, bs) ← readExact len bs
    let s ← strFromBytes buf
    some (some s, bs)
  else some (none, bs)

def projectionVariantTag : ProjectionVariant → Nat
  | .firstVars => 1
  | .lastVars => 2

def shiftVariantTag : ShiftVariant → Nat
  | .circularLeft => 1
  | .logicalLeft => 2
  | .logicalRight => 3

/-- The per-value serialization loop of `Projected::write`: for each field
element, its serialized length as a `usize` (8 bytes) followed by the
serialized bytes. -/
def valuesWrite (ser : F → List Nat) (values : List F) : List Nat :=
  (values.map (fun v => usizeLe (ser v).length ++ ser v)).flatten

mutual

/-- `MultilinearPolyOracle::write`.  `none` models the `todo!()` panic on
the `Transparent` variant.  Byte-level detail faithfully follows the
source: the `Repeating` arm casts its id to `u32` and length-prefixes the
inner buffer, while the `Projected`/`Shifted`/`Packed`/`LinearCombination`/
`ZeroPadded` arms write the raw 8-byte `usize` id and do **not**
length-prefix their struct buffer. -/
def oracleWrite (ser : F → List Nat) : MultilinearPolyOracle F → Option (List Nat)
  | .transparent _ _ _ _ => none
  | .committed oracleId nVars towerLevel name =>
    some (u32le 2 ++ u32le oracleId ++ u32le nVars ++ u32le towerLevel ++ writeName name)
  | .repeating id inner logCount name => do
    let buf ← oracleWrite ser inner
    some (u32le 3 ++ u32le id ++ u32le buf.length ++ buf ++ u32le logCount ++ writeName name)
  | .projected id inner values variant name => do
    let innerBuf ← oracleWrite ser inner
    some (u32le 4 ++ usizeLe id ++
      (innerBuf ++ usizeLe values.length ++ valuesWrite ser values ++
        u32le (projectionVariantTag variant)) ++ writeName name)
  | .shifted id inner shiftOffset blockSize variant name => do
    let innerBuf ← oracleWrite ser inner
    some (u32le 5 ++ usizeLe id ++
      (innerBuf ++ u32le shiftOffset ++ u32le blockSize ++ u32le (shiftVariantTag variant)) ++
      writeName name)
  | .packed id inner logDegree name => do
    let innerBuf ← oracleWrite ser inner
    some (u32le 6 ++ usizeLe id ++ (innerBuf ++ usizeLe logDegree) ++ writeName name)
  | .linearCombination id nVars offset inner name => do
    let innerBytes ← lcInnerWrite ser inner
    some (u32le 7 ++ usizeLe id ++
      (usizeLe nVars ++ usizeLe (ser offset).length ++ ser offset ++
        u32le inner.length ++ innerBytes) ++ writeName name)
  | .zeroPadded id inner nVars name => do
    let innerBuf ← oracleWrite ser inner
    some (u32le 8 ++ usizeLe id ++ innerBuf ++ usizeLe nVars ++ writeName name)

/-- The pair-list serialization loop inside `LinearCombination::write`. -/
def lcInnerWrite (ser : F → List Nat) : List (MultilinearPolyOracle F × F) → Option (List Nat)
  | [] => some []
  | (p, c) :: rest => do
    let b ← oracleWrite ser p
    let restBytes ← lcInnerWrite ser rest
    some (b ++ usizeLe (ser c).length ++ ser c ++ restBytes)

end

/-- The per-value deserialization loop of `Projected::read`. -/
def valuesReadLoop (deser : List Nat → Option F) : Nat → List Nat → Option (List F × List Nat)
  | 0, bs => some ([], bs)
  | n + 1, bs => do
    let (len, bs) ← readU32 bs
    let (buf, bs) ← readExact len bs
    let v ← deser buf
    let (rest, bs) ← valuesReadLoop deser n bs
    some (v :: rest, bs)

mutual

/-- `MultilinearPolyOracle::read`, with the nested struct readers
(`Projected::read`, `Shifted::read`, `Packed::read`,
`LinearCombination::read`, each invoked by the source on a length-prefixed
sub-buffer whose unread remainder is dropped) inlined into the identifier
arms.  The `fuel` argument only bounds the recursion depth; one unit is
spent per oracle header, and since a successful source-level parse consumes
at least four bytes per nested oracle, calling with
`fuel = bs.length + 1` never exhausts the fuel on an input the source
reader would finish parsing.  `none` models `io::Error`, the `todo!()` on
identifier 1, and the `unreachable!()` arms alike. -/
def oracleReadF (deser : List Nat → Option F) :
    Nat → List Nat → Option (MultilinearPolyOracle F × List Nat)
  | 0, _ => none
  | fuel + 1, bs => do
    let (identifier, bs) ← readU32 bs
    match identifier with
    | 2 => do
      let (oracleId, bs) ← readU32 bs
      let (nVars, bs) ← readU32 bs
      let (towerLevel, bs) ← readU32 bs
      let (name, bs) ← readName bs
      some (.committed oracleId nVars towerLevel name, bs)
    | 3 => do
      let (id, bs) ← readU32 bs
      let (len, bs) ← readU32 bs
      let (buf, bs) ← readExact len bs
      let (inner, _) ← oracleReadF deser fuel buf
      let (logCount, bs) ← readU32 bs
      let (name, bs) ← readName bs
      some (.repeating id inner logCount name, bs)
    | 4 => do
      let (id, bs) ← readU32 bs
      let (len, bs) ← readU32 bs
      let (buf, bs) ← readExact len bs
      let (inner, buf) ← oracleReadF deser fuel buf
      let (vlen, buf) ← readU32 buf
      let (values, buf) ← valuesReadLoop deser vlen buf
      let (vtag, _) ← readU32 buf
      let variant ← match vtag with
        | 1 => some ProjectionVariant.firstVars
        | 2 => some ProjectionVariant.lastVars
        | _ => none
      let (name, bs) ← readName bs
      some (.projected id inner values variant name, bs)
    | 5 => do
      let (id, bs) ← readU32 bs
      let (len, bs) ← readU32 bs
      let (buf, bs) ← readExact len bs
      let (inner, buf) ← oracleReadF deser fuel buf
      let (shiftOffset, buf) ← readU32 buf
      let (blockSize, buf) ← readU32 buf
      let (stag, _) ← readU32 buf
      let variant ← match stag with
        | 1 => some ShiftVariant.circularLeft
        | 2 => some ShiftVariant.logicalLeft
        | 3 => some ShiftVariant.logicalRight
        | _ => none
      let (name, bs) ← readName bs
      some (.shifted id inner shiftOffset blockSize variant name, bs)
    | 6 => do
      let (id, bs) ← readU32 bs
      let (len, bs) ← readU32 bs
      let (buf, bs) ← readExact len bs
      let (inner, buf) ← oracleReadF deser fuel buf
      let (logDegree, _) ← readU32 buf
      let (name, bs) ← readName bs
      some (.packed id inner logDegree name, bs)
    | 7 => do
      let (id, bs) ← readU32 bs
      let (len, bs) ← readU32 bs
      let (buf, bs) ← readExact len bs
      let (nVars, buf) ← readU32 buf
      let (olen, buf) ← readU32 buf
      let (obuf, buf) ← readExact olen buf
      let offset ← deser obuf
      let (innerLen, buf) ← readU32 buf
      let (inner, _) ← lcInnerReadF deser fuel innerLen buf
      let (name, bs) ← readName bs
      some (.linearCombination id nVars offset inner name, bs)
    | 8 => do
      let (id, bs) ← readU32 bs
      let (len, bs) ← readU32 bs
      let (buf, bs) ← readExact len bs
      let (inner, _) ← oracleReadF deser fuel buf
      let (nVars, bs) ← readU32 bs
      let (name, bs) ← readName bs
      some (.zeroPadded id inner nVars name, bs)
    | _ => none

/-- The pair-list deserialization loop inside `LinearCombination::read`.
The fuel strictly decreases on every recursive call (so that the mutual
recursion is structural in the fuel and evaluates inside the kernel); the
top-level entry points pass enough fuel that this never cuts a parse short
that the source reader would finish. -/
def lcInnerReadF (deser : List Nat → Option F) :
    Nat → Nat → List Nat → Option (List (MultilinearPolyOracle F × F) × List Nat)
  | _, 0, bs => some ([], bs)
  | 0, _ + 1, _ => none
  | fuel + 1, count + 1, bs => do
    let (p, bs) ← oracleReadF deser fuel bs
    let (len, bs) ← readU32 bs
    let (cbuf, bs) ← readExact len bs
    let c ← deser cbuf
    let (rest, bs) ← lcInnerReadF deser fuel count bs
    some ((p, c) :: rest, bs)

end

/-- `MultilinearOracleSet::write`. -/
def oracleSetWrite (ser : F → List Nat) (s : MultilinearOracleSet F) : Option (List Nat) := do
  let bodies ← s.oracles.mapM (oracleWrite ser)
  some (u32le s.oracles.length ++ bodies.flatten)

/-- The oracle loop of `MultilinearOracleSet::read`. -/
def oracleSetReadLoop (deser : List Nat → Option F) :
    Nat → List Nat → Option (List (MultilinearPolyOracle F) × List Nat)
  | 0, bs => some ([], bs)
  | n + 1, bs => do
    let (o, bs) ← oracleReadF deser (bs.length + 1) bs
    let (rest, bs) ← oracleSetReadLoop deser n bs
    some (o :: rest, bs)

/-- `MultilinearOracleSet::read`. -/
def oracleSetRead (deser : List Nat → Option F) (bs : List Nat) :
    Option (MultilinearOracleSet F × List Nat) := do
  let (len, bs) ← readU32 bs
  let (os, bs) ← oracleSetReadLoop deser len bs
  some (({ oracles := os } : MultilinearOracleSet F), bs)

/-- `ArithExpr<F>` from `math/arith_expr.rs` (`u64` exponents as `Nat`). -/
inductive ArithExpr (F : Type) where
  | const (c : F)
  | var (i : Nat)
  | add (l r : ArithExpr F)
  | mul (l r : ArithExpr F)
  | pow (base : ArithExpr F) (exp : Nat)

/-- `ArithExpr::write`.  `Const` length-prefixes the serialized constant
with a raw 8-byte `usize`; `Add`/`Mul`/`Pow` length-prefix their child
buffer with a `u32` cast; `Pow` appends the exponent inside the child
buffer. -/
def arithExprWrite (ser : F → List Nat) : ArithExpr F → List Nat
  | .const c => u32le 1 ++ usizeLe (ser c).length ++ ser c
  | .var i => u32le 2 ++ u32le i
  | .add l r =>
    let buf := arithExprWrite ser l ++ arithExprWrite ser r
    u32le 3 ++ u32le buf.length ++ buf
  | .mul l r =>
    let buf := arithExprWrite ser l ++ arithExprWrite ser r
    u32le 4 ++ u32le buf.length ++ buf
  | .pow base exp =>
    let buf := arithExprWrite ser base ++ u64le exp
    u32le 5 ++ u32le buf.length ++ buf

/-- `ArithExpr::read` (fuel-bounded like `oracleReadF`).  Byte-level detail
faithfully follows the source: in the `Add`/`Mul` arms **both** children
are parsed from the start of the same sub-buffer, and the `Pow` arm reads
its exponent from the outer reader although `write` placed it inside the
sub-buffer. -/
def arithExprReadF (deser : List Nat → Option F) :
    Nat → List Nat → Option (ArithExpr F × List Nat)
  | 0, _ => none
  | fuel + 1, bs => do
    let (tag, bs) ← readU32 bs
    match tag with
    | 1 => do
      let (len, bs) ← readU32 bs
      let (buf, bs) ← readExact len bs
      let c ← deser buf
      some (.const c, bs)
    | 2 => do
      let (i, bs) ← readU32 bs
      some (.var i, bs)
    | 3 => do
      let (len, bs) ← readU32 bs
      let (buf, bs) ← readExact len bs
      let (l, _) ← arithExprReadF deser fuel buf
      let (r, _) ← arithExprReadF deser fuel buf
      some (.add l r, bs)
    | 4 => do
      let (len, bs) ← readU32 bs
      let (buf, bs) ← readExact len bs
      let (l, _) ← arithExprReadF deser fuel buf
      let (r, _) ← arithExprReadF deser fuel buf
      some (.mul l r, bs)
    | 5 => do
      let (len, bs) ← readU32 bs
      let (buf, bs) ← readExact len bs
      let (base, _) ← arithExprReadF deser fuel buf
      let (exp, bs) ← readU64 bs
      some (.pow base exp, bs)
    | _ => none

/-- `ConstraintPredicate<F>` from `oracle/constraint.rs`. -/
inductive ConstraintPredicate (F : Type) where
  | sum (s : F)
  | zero

/-- `ConstraintPredicate::write`: the `Sum` constant's serialized bytes are
written with no length prefix. -/
def predicateWrite (ser : F → List Nat) : ConstraintPredicate F → List Nat
  | .sum s => u32le 1 ++ ser s
  | .zero => u32le 2

/-- `ConstraintPredicate::read`.  Byte-level detail faithfully follows the
source: the `Sum` arm deserializes the constant from a freshly created
**empty** buffer (it never reads the serialized bytes from the stream);
`none` models the `unwrap` panic when that empty-buffer deserialization
fails, and the `unreachable!()` on other tags. -/
def predicateRead (deser : List Nat → Option F) (bs : List Nat) :
    Option (ConstraintPredicate F × List Nat) := do
  let (tag, bs) ← readU32 bs
  match tag with
  | 1 => do
    let s ← deser []
    some (.sum s, bs)
  | 2 => some (.zero, bs)
  | _ => none

/-- `Constraint<F>` from `oracle/constraint.rs`, restricted to the fields
its serialization covers.  (The source struct also has a `name: Arc<str>`
field that `write` skips and `read` does not reconstruct.) -/
structure Constraint (F : Type) where
  composition : ArithExpr F
  predicate : ConstraintPredicate F

/-- `Constraint::write`. -/
def constraintWrite (ser : F → List Nat) (c : Constraint F) : List Nat :=
  arithExprWrite ser c.composition ++ predicateWrite ser c.predicate

/-- `Constraint::read`. -/
def constraintRead (deser : List Nat → Option F) (bs : List Nat) :
    Option (Constraint F × List Nat) := do
  let (composition, bs) ← arithExprReadF deser (bs.length + 1) bs
  let (predicate, bs) ← predicateRead deser bs
  some ({ composition := composition, predicate := predicate }, bs)

/-- `ConstraintSet<F>` from `oracle/constraint.rs`. -/
structure ConstraintSet (F : Type) where
  nVars : Nat
  oracleIds : List Nat
  constraints : List (Constraint F)

/-- `ConstraintSet::write`. -/
def constraintSetWrite (ser : F → List Nat) (cs : ConstraintSet F) : List Nat :=
  u32le cs.nVars ++
  u32le cs.oracleIds.length ++ (cs.oracleIds.map u32le).flatten ++
  u32le cs.constraints.length ++ (cs.constraints.map (constraintWrite ser)).flatten

/-- A loop reading `n` little-endian `u32` values. -/
def readU32Loop : Nat → List Nat → Option (List Nat × List Nat)
  | 0, bs => some ([], bs)
  | n + 1, bs => do
    let (v, bs) ← readU32 bs
    let (rest, bs) ← readU32Loop n bs
    some (v :: rest, bs)

/-- The constraint loop of `ConstraintSet::read`. -/
def constraintsReadLoop (deser : List Nat → Option F) :
    Nat → List Nat → Option (List (Constraint F) × List Nat)
  | 0, bs => some ([], bs)
  | n + 1, bs => do
    let (c, bs) ← constraintRead deser bs
    let (rest, bs) ← constraintsReadLoop deser n bs
    some (c :: rest, bs)

/-- `ConstraintSet::read`. -/
def constraintSetRead (deser : List Nat → Option F) (bs : List Nat) :
    Option (ConstraintSet F × List Nat) := do
  let (nVars, bs) ← readU32 bs
  let (idsLen, bs) ← readU32 bs
  let (oracleIds, bs) ← readU32Loop idsLen bs
  let (csLen, bs) ← readU32 bs
  let (constraints, bs) ← constraintsReadLoop deser csLen bs
  some ({ nVars := nVars, oracleIds := oracleIds, constraints := constraints }, bs)

/-- `Flush::write` from `channel.rs` (direction tags: push = 1, pull = 2). -/
def flushWrite (f : Flush) : List Nat :=
  u32le f.oracles.length ++ (f.oracles.map u32le).flatten ++
  u32le f.channelId ++
  u32le (match f.direction with | .push => 1 | .pull => 2) ++
  u32le f.count ++ u64le f.multiplicity

/-- `Flush::read` from `channel.rs`; `none` models the `unreachable!()` on
an unknown direction tag. -/
def flushRead (bs : List Nat) : Option (Flush × List Nat) := do
  let (oraclesLen, bs) ← readU32 bs
  let (oracles, bs) ← readU32Loop oraclesLen bs
  let (channelId, bs) ← readU32 bs
  let (dirTag, bs) ← readU32 bs
  let direction ← match dirTag with
    | 1 => some FlushDirection.push
    | 2 => some FlushDirection.pull
    | _ => none
  let (count, bs) ← readU32 bs
  let (multiplicity, bs) ← readU64 bs
  some ({ oracles := oracles, channelId := channelId, direction := direction,
          count := count, multiplicity := multiplicity }, bs)

/-- The flush loop of `ConstraintSystem::read`. -/
def flushesReadLoop : Nat → List Nat → Option (List Flush × List Nat)
  | 0, bs => some ([], bs)
  | n + 1, bs => do
    let (f, bs) ← flushRead bs
    let (rest, bs) ← flushesReadLoop n bs
    some (f :: rest, bs)

/-- The constraint-set loop of `ConstraintSystem::read`. -/
def constraintSetsReadLoop (deser : List Nat → Option F) :
    Nat → List Nat → Option (List (ConstraintSet F) × List Nat)
  | 0, bs => some ([], bs)
  | n + 1, bs => do
    let (cs, bs) ← constraintSetRead deser bs
    let (rest, bs) ← constraintSetsReadLoop deser n bs
    some (cs :: rest, bs)

/-- `ConstraintSystem<F>` from `constraint_system/mod.rs`. -/
structure ConstraintSystem (F : Type) where
  oracles : MultilinearOracleSet F
  tableConstraints : List (ConstraintSet F)
  nonZeroOracleIds : List Nat
  flushes : List Flush
  maxChannelId : Nat

/-- `ConstraintSystem::write`. -/
def constraintSystemWrite (ser : F → List Nat) (cs : ConstraintSystem F) :
    Option (List Nat) := do
  let oracleBytes ← oracleSetWrite ser cs.oracles
  some (oracleBytes ++
    u32le cs.tableConstraints.length ++
    (cs.tableConstraints.map (constraintSetWrite ser)).flatten ++
    u32le cs.nonZeroOracleIds.length ++ (cs.nonZeroOracleIds.map u32le).flatten ++
    u32le cs.flushes.length ++ (cs.flushes.map flushWrite).flatten ++
    u32le cs.maxChannelId)

/-- `ConstraintSystem::read`. -/
def constraintSystemRead (deser : List Nat → Option F) (bs : List Nat) :
    Option (ConstraintSystem F × List Nat) := do
  let (oracles, bs) ← oracleSetRead deser bs
  let (tcLen, bs) ← readU32 bs
  let (tableConstraints, bs) ← constraintSetsReadLoop deser tcLen bs
  let (nzLen, bs) ← readU32 bs
  let (nonZeroOracleIds, bs) ← readU32Loop nzLen bs
  let (flLen, bs) ← readU32 bs
  let (flushes, bs) ← flushesReadLoop flLen bs
  let (maxChannelId, bs) ← readU32 bs
  some ({ oracles := oracles, tableConstraints := tableConstraints,
          nonZeroOracleIds := nonZeroOracleIds, flushes := flushes,
          maxChannelId := maxChannelId }, bs)

/-- `Proof` from `constraint_system/mod.rs`, with the `transcript` and
`advice` byte streams that its `write`/`read` and the verify pipeline use. -/
structure Proof where
  transcript : List Nat
  advice : List Nat
deriving Repr, DecidableEq

/-- `Proof::write`; `none` models the `assert!` panics on streams of length
`>= u32::MAX`. -/
def proofWrite (p : Proof) : Option (List Nat) :=
  if p.transcript.length < 2 ^ 32 - 1 ∧ p.advice.length < 2 ^ 32 - 1 then
    some (u32le p.transcript.length ++ p.transcript ++
      u32le p.advice.length ++ p.advice)
  else none

/-- `Proof::read`. -/
def proofRead (bs : List Nat) : Option (Proof × List Nat) := do
  let (tlen, bs) ← readU32 bs
  let (transcript, bs) ← readExact tlen bs
  let (alen, bs) ← readU32 bs
  let (advice, bs) ← readExact alen bs
  some ({ transcript := transcript, advice := advice }, bs)

/-! ## Theorems -/

/-- Spec-side predicate for C7: when an add operation on the oracle graph
succeeds, the returned handle equals the graph's size immediately before the
call and the size grows by exactly one.  Failing or panicking calls are not
constrained by this predicate. -/
def FreshHandleSpec (s : MultilinearOracleSet F) :
    RRes Err (MultilinearOracleSet F × Nat) → Prop
  | .ok (s', id) => id = s.size ∧ s'.size = s.size + 1
  | .err _ => True
  | .panic => True

theorem addToSetFresh (s : MultilinearOracleSet F) (f : Nat → MultilinearPolyOracle F) :
    (s.addToSet f).2 = s.size ∧ (s.addToSet f).1.size = s.size + 1 := by
  simp [MultilinearOracleSet.addToSet, MultilinearOracleSet.size]

/-- C7: every add operation on the oracle graph (committed, transparent,
repeating, shifted, packed, projected, linear-combination, zero-padded)
returns, on success, a handle equal to the graph's size immediately before
the call and increases the size by exactly one; and a handle is valid iff
it is less than the current size. -/
theorem oracleSetAddFreshHandle (s : MultilinearOracleSet F) :
    (∀ nVars towerLevel name,
      (s.addCommitted nVars towerLevel name).2 = s.size ∧
      (s.addCommitted nVars towerLevel name).1.size = s.size + 1) ∧
    (∀ fTowerLevel polyNVars polyTowerLevel name,
      FreshHandleSpec s (s.addTransparent fTowerLevel polyNVars polyTowerLevel name)) ∧
    (∀ innerId logCount name,
      FreshHandleSpec s (s.addRepeating innerId logCount name)) ∧
    (∀ innerId offset blockBits variant name,
      FreshHandleSpec s (s.addShifted innerId offset blockBits variant name)) ∧
    (∀ innerId logDegree name,
      FreshHandleSpec s (s.addPacked innerId logDegree name)) ∧
    (∀ innerId values variant name,
      FreshHandleSpec s (s.addProjected innerId values variant name)) ∧
    (∀ nVars offset inner name,
      FreshHandleSpec s (s.addLinearCombinationWithOffset nVars offset inner name)) ∧
    (∀ innerId nVars name,
      FreshHandleSpec s (s.addZeroPadded innerId nVars name)) ∧
    (∀ id, s.isValidOracleId id = true ↔ id < s.size) := by
  refine ⟨?_, ?_, ?_, ?_, ?_, ?_, ?_, ?_, ?_⟩
  · intro nVars towerLevel name
    exact addToSetFresh s _
  · intro fTowerLevel polyNVars polyTowerLevel name
    unfold MultilinearOracleSet.addTransparent
    simp only [apply_dite (FreshHandleSpec s), apply_ite (FreshHandleSpec s)]
    simp [FreshHandleSpec, MultilinearOracleSet.addToSet, MultilinearOracleSet.size]
  · intro innerId logCount name
    unfold MultilinearOracleSet.addRepeating
    simp only [apply_dite (FreshHandleSpec s), apply_ite (FreshHandleSpec s)]
    simp [FreshHandleSpec, MultilinearOracleSet.addToSet, MultilinearOracleSet.size]
  · intro innerId offset blockBits variant name
    unfold MultilinearOracleSet.addShifted
    simp only [apply_dite (FreshHandleSpec s), apply_ite (FreshHandleSpec s)]
    simp [FreshHandleSpec, MultilinearOracleSet.addToSet, MultilinearOracleSet.size]
  · intro innerId logDegree name
    unfold MultilinearOracleSet.addPacked
    simp only [apply_dite (FreshHandleSpec s), apply_ite (FreshHandleSpec s)]
    simp [FreshHandleSpec, MultilinearOracleSet.addToSet, MultilinearOracleSet.size]
  · intro innerId values variant name
    unfold MultilinearOracleSet.addProjected
    split
    · simp [FreshHandleSpec]
    · simp only [apply_dite (FreshHandleSpec s), apply_ite (FreshHandleSpec s)]
      simp [FreshHandleSpec, MultilinearOracleSet.addToSet, MultilinearOracleSet.size]
  · intro nVars offset inner name
    unfold MultilinearOracleSet.addLinearCombinationWithOffset
    cases h : resolveLinCombInner s nVars inner with
    | panic => simp [FreshHandleSpec]
    | err e => simp [FreshHandleSpec]
    | ok resolved =>
      simp [FreshHandleSpec, MultilinearOracleSet.addToSet, MultilinearOracleSet.size]
  · intro innerId nVars name
    unfold MultilinearOracleSet.addZeroPadded
    simp only [apply_dite (FreshHandleSpec s), apply_ite (FreshHandleSpec s)]
    simp [FreshHandleSpec, MultilinearOracleSet.addToSet, MultilinearOracleSet.size]
  · intro id
    simp [MultilinearOracleSet.isValidOracleId, MultilinearOracleSet.size]

/-- C6 (code bug): the claim says every derived-oracle constructor whose
arguments violate its precondition — including an out-of-range inner oracle
handle — returns a structural error and never panics.  `add_projected`
violates this: it reads `n_vars(inner_id)` (an indexing operation) before
any handle validation, so on a graph of size 1 the out-of-range handle 1
panics with an out-of-bounds index instead of returning
`Error::InvalidOracleId`.  This theorem evaluates the embedded code at that
failing input.  (Contrast: `add_shifted` on the same input returns the
structural error, as the claim demands of all constructors.) -/
theorem addProjectedPanicsOnInvalidHandle :
    (MultilinearOracleSet.mk [MultilinearPolyOracle.committed 0 1 0 none] :
        MultilinearOracleSet Unit).addProjected 1 [] .firstVars none
      = .panic ∧
    (MultilinearOracleSet.mk [MultilinearPolyOracle.committed 0 1 0 none] :
        MultilinearOracleSet Unit).addShifted 1 1 1 .circularLeft none
      = .err (.invalidOracleId 1) := by
  constructor
  · rfl
  · rfl

/-! Lemmas about the stable sort. -/

theorem insertByKeyPerm (key : α → Nat) (a : α) (l : List α) :
    (insertByKey key a l).Perm (a :: l) := by
  induction l with
  | nil => simp [insertByKey]
  | cons b rest ih =>
    simp only [insertByKey]
    by_cases h : key b ≤ key a
    · simp only [h, if_true]
      exact (ih.cons b).trans (List.Perm.swap a b rest)
    · simp [h]

theorem foldlInsertPerm (key : α → Nat) :
    ∀ (l acc : List α), (l.foldl (fun acc a => insertByKey key a acc) acc).Perm (l ++ acc)
  | [], acc => by simp
  | a :: l, acc => by
    simp only [List.foldl_cons, List.cons_append]
    exact (foldlInsertPerm key l (insertByKey key a acc)).trans
      (((insertByKeyPerm key a acc).append_left l).trans List.perm_middle)

theorem sortByKeyPerm (key : α → Nat) (l : List α) : (sortByKey key l).Perm l := by
  simpa using foldlInsertPerm key l []

theorem insertByKeySorted (key : α → Nat) (a : α) (l : List α)
    (h : List.Pairwise (fun x y => key x ≤ key y) l) :
    List.Pairwise (fun x y => key x ≤ key y) (insertByKey key a l) := by
  induction l with
  | nil => simp [insertByKey]
  | cons b rest ih =>
    rcases h with - | ⟨hb, hrest⟩
    simp only [insertByKey]
    by_cases hba : key b ≤ key a
    · simp only [hba, if_true]
      refine List.Pairwise.cons ?_ (ih hrest)
      intro x hx
      rcases List.mem_cons.mp ((insertByKeyPerm key a rest).mem_iff.mp hx) with hxa | hxr
      · subst hxa; exact hba
      · exact hb x hxr
    · simp only [hba, if_false]
      refine List.Pairwise.cons ?_ (List.Pairwise.cons hb hrest)
      intro x hx
      rcases List.mem_cons.mp hx with hxb | hxr
      · subst hxb; omega
      · exact le_trans (by omega) (hb x hxr)

theorem sortByKeySorted (key : α → Nat) (l : List α) :
    List.Pairwise (fun x y => key x ≤ key y) (sortByKey key l) := by
  have main : ∀ (l acc : List α), List.Pairwise (fun x y => key x ≤ key y) acc →
      List.Pairwise (fun x y => key x ≤ key y)
        (l.foldl (fun acc a => insertByKey key a acc) acc) := by
    intro l
    induction l with
    | nil => intro acc h; simpa using h
    | cons a l ih =>
      intro acc h
      simp only [List.foldl_cons]
      exact ih _ (insertByKeySorted key a acc h)
  exact main l [] (by simp)

/-! Lemmas about the coverage check loop. -/

theorem coverageCheckLoopOkIff (l : List (Nat × α)) :
    ∀ i, coverageCheckLoop i l = .ok () ↔ l.map Prod.fst = List.range' i l.length := by
  induction l with
  | nil => intro i; simp [coverageCheckLoop, List.range']
  | cons p rest ih =>
    intro i
    obtain ⟨batchId, x⟩ := p
    simp only [coverageCheckLoop, List.map_cons, List.length_cons, List.range']
    by_cases h : batchId = i
    · subst h
      simp only [if_neg (by omega : ¬batchId ≠ batchId)]
      rw [ih (batchId + 1)]
      constructor
      · intro he; rw [he]
      · intro he; exact (List.cons.injEq _ _ _ _).mp he |>.2
    · simp only [if_pos h]
      constructor
      · intro he; cases he
      · intro he
        exact absurd ((List.cons.injEq _ _ _ _).mp he).1 h

theorem coverageCheckLoopShape (l : List (Nat × α)) :
    ∀ i, coverageCheckLoop i l = .ok () ∨
      ∃ j, coverageCheckLoop i l = .err (.unconstrainedBatch j) := by
  induction l with
  | nil => intro i; left; rfl
  | cons p rest ih =>
    intro i
    obtain ⟨batchId, x⟩ := p
    simp only [coverageCheckLoop]
    by_cases h : batchId ≠ i
    · right; exact ⟨i, by simp [h]⟩
    · simp only [h, if_false]
      exact ih (i + 1)

/-- C4: under the guarantee that every resulting PCS claim's batch id
refers to a committed batch (`< nBatches`), the coverage check accepts iff
the multiset of claimed batch ids is exactly one claim per batch
(a permutation of `0, ..., nBatches - 1`); in particular a missing batch
id, a duplicated batch id, or fewer claims than batches each make it fail,
and every failure is the under-constrained-system error. -/
theorem coverageCheckCharacterization (pcsClaims : List (Nat × α)) (nBatches : Nat)
    (hlt : ∀ c ∈ pcsClaims, c.1 < nBatches) :
    (coverageCheck pcsClaims nBatches = .ok () ↔
      (pcsClaims.map Prod.fst).Perm (List.range nBatches)) ∧
    (coverageCheck pcsClaims nBatches = .ok () ∨
      ∃ j, coverageCheck pcsClaims nBatches = .err (.unconstrainedBatch j)) := by
  have hperm : (sortByKey (fun c => c.1) pcsClaims).Perm pcsClaims :=
    sortByKeyPerm _ pcsClaims
  have hmapperm : ((sortByKey (fun c => c.1) pcsClaims).map Prod.fst).Perm
      (pcsClaims.map Prod.fst) := hperm.map Prod.fst
  have hsorted : List.Sorted (· ≤ ·) ((sortByKey (fun c => c.1) pcsClaims).map Prod.fst) := by
    rw [List.Sorted, List.pairwise_map]
    exact sortByKeySorted _ pcsClaims
  refine ⟨⟨?_, ?_⟩, ?_⟩
  · intro hok
    unfold coverageCheck at hok
    rcases coverageCheckLoopShape (sortByKey (fun c => c.1) pcsClaims) 0 with hsh | ⟨j, hsh⟩
    swap
    · rw [hsh] at hok; cases hok
    rw [hsh] at hok
    simp only [RRes.bind_ok] at hok
    have hlen : ¬((sortByKey (fun c => c.1) pcsClaims).length < nBatches) := by
      by_contra hc
      rw [if_pos hc] at hok
      cases hok
    have hmap := (coverageCheckLoopOkIff (sortByKey (fun c => c.1) pcsClaims) 0).mp hsh
    rw [← List.range_eq_range'] at hmap
    have hlen2 : (sortByKey (fun c => c.1) pcsClaims).length ≤ nBatches := by
      by_contra hgt
      push_neg at hgt
      have hmem : nBatches ∈ (sortByKey (fun c => c.1) pcsClaims).map Prod.fst := by
        rw [hmap]
        exact List.mem_range.mpr hgt
      rcases List.mem_map.mp hmem with ⟨c, hc, hfst⟩
      have hcp := hlt c (hperm.subset hc)
      omega
    have hleneq : (sortByKey (fun c => c.1) pcsClaims).length = nBatches := by omega
    rw [hleneq] at hmap
    rw [← hmap]
    exact hmapperm.symm
  · intro hpm
    have hpm2 : ((sortByKey (fun c => c.1) pcsClaims).map Prod.fst).Perm
        (List.range nBatches) := hmapperm.trans hpm
    have heq : (sortByKey (fun c => c.1) pcsClaims).map Prod.fst =
        List.range nBatches :=
      List.eq_of_perm_of_sorted hpm2 hsorted (List.sorted_le_range nBatches)
    have hlen : (sortByKey (fun c => c.1) pcsClaims).length = nBatches := by
      have := congrArg List.length heq
      simpa using this
    have hloop : coverageCheckLoop 0 (sortByKey (fun c => c.1) pcsClaims) = .ok () := by
      rw [coverageCheckLoopOkIff]
      rw [← List.range_eq_range', hlen]
      exact heq
    unfold coverageCheck
    rw [hloop]
    simp [hlen]
  · unfold coverageCheck
    rcases coverageCheckLoopShape (sortByKey (fun c => c.1) pcsClaims) 0 with hsh | ⟨j, hsh⟩
    · rw [hsh]
      by_cases hl : (sortByKey (fun c => c.1) pcsClaims).length < nBatches
      · right
        refine ⟨(sortByKey (fun c => c.1) pcsClaims).length, ?_⟩
        simp [hl]
      · left
        simp [hl]
    · right
      exact ⟨j, by rw [hsh]; rfl⟩

/-- Witness for C4: a concrete claim list covering both batches of a
two-batch system, out of order, is accepted. -/
theorem coverageCheckCharacterizationWitness :
    coverageCheck [((1 : Nat), ()), (0, ())] 2 = .ok () :=
  (coverageCheckCharacterization [((1 : Nat), ()), (0, ())] 2 (by decide)).1.mpr (by decide)

/-! Lemmas for C10: `verify_channels_balance` never looks at boundaries on
channels that occur in no flush. -/

theorem boundaryProductsFoldFilter [CommRing F] (mixingChallenge : F)
    (permutationChallenges : Nat → F) (ch c : Nat) (hc : ch ≠ c) :
    ∀ (boundaries : List (Boundary F)) (init : F × F),
    (boundaries.filter (fun b => decide (b.channelId ≠ c))).foldl
      (fun pp b =>
        if b.channelId = ch then
          let mixedWithMult :=
            mixedValue (permutationChallenges ch) mixingChallenge b.values ^ b.multiplicity
          match b.direction with
          | .pull => (pp.1 * mixedWithMult, pp.2)
          | .push => (pp.1, pp.2 * mixedWithMult)
        else pp) init =
    boundaries.foldl
      (fun pp b =>
        if b.channelId = ch then
          let mixedWithMult :=
            mixedValue (permutationChallenges ch) mixingChallenge b.values ^ b.multiplicity
          match b.direction with
          | .pull => (pp.1 * mixedWithMult, pp.2)
          | .push => (pp.1, pp.2 * mixedWithMult)
        else pp) init
  | [], init => by simp
  | b :: rest, init => by
    by_cases hb : b.channelId = c
    · have hstep : (b :: rest).filter (fun x => decide (x.channelId ≠ c)) =
          rest.filter (fun x => decide (x.channelId ≠ c)) := by
        simp [List.filter_cons, hb]
      rw [hstep, List.foldl_cons, if_neg (show ¬b.channelId = ch by omega)]
      exact boundaryProductsFoldFilter mixingChallenge permutationChallenges ch c hc rest init
    · have hstep : (b :: rest).filter (fun x => decide (x.channelId ≠ c)) =
          b :: rest.filter (fun x => decide (x.channelId ≠ c)) := by
        simp [List.filter_cons, hb]
      rw [hstep, List.foldl_cons, List.foldl_cons]
      exact boundaryProductsFoldFilter mixingChallenge permutationChallenges ch c hc rest _

theorem boundaryProductsFilter [CommRing F] (boundaries : List (Boundary F))
    (mixingChallenge : F) (permutationChallenges : Nat → F) (ch c : Nat) (hc : ch ≠ c) :
    boundaryProducts (boundaries.filter (fun b => decide (b.channelId ≠ c)))
      mixingChallenge permutationChallenges ch =
    boundaryProducts boundaries mixingChallenge permutationChallenges ch :=
  boundaryProductsFoldFilter mixingChallenge permutationChallenges ch c hc boundaries (1, 1)

theorem vcbLoopFilter [CommRing F] [DecidableEq F] (mixingChallenge : F)
    (permutationChallenges : Nat → F) (c : Nat) (boundaries : List (Boundary F)) :
    ∀ (n : Nat) (l : List (Flush × F)), l.length ≤ n →
    (∀ fp ∈ l, fp.1.channelId ≠ c) →
    vcbLoop (boundaries.filter (fun b => decide (b.channelId ≠ c)))
      mixingChallenge permutationChallenges l =
    vcbLoop boundaries mixingChallenge permutationChallenges l := by
  intro n
  induction n with
  | zero =>
    intro l hl _
    have : l = [] := List.length_eq_zero.mp (Nat.le_zero.mp hl)
    subst this
    simp [vcbLoop]
  | succ n ih =>
    intro l hl hmem
    match l with
    | [] => simp [vcbLoop]
    | (f, p) :: rest =>
      have hf : f.channelId ≠ c := hmem (f, p) (List.mem_cons_self _ _)
      have hlen2 : (rest.dropWhile (fun fp => fp.1.channelId = f.channelId)).length ≤ n := by
        have hd := lengthDropWhileLe (fun (fp : Flush × F) => fp.1.channelId = f.channelId) rest
        simp only [List.length_cons] at hl
        omega
      have hrec := ih (rest.dropWhile (fun fp => fp.1.channelId = f.channelId))
        hlen2
        (fun fp hfp => hmem fp (List.mem_cons_of_mem _
          ((rest.dropWhile_sublist (fun fp => fp.1.channelId = f.channelId)).mem hfp)))
      simp only [vcbLoop]
      rw [boundaryProductsFilter boundaries mixingChallenge permutationChallenges
        f.channelId c hf]
      rw [hrec]

/-- C10: `verify_channels_balance` only examines channel ids that occur in
at least one flush: when channel `c` appears in no flush, the result is
unchanged if every boundary on `c` is removed — so a channel id appearing
only in boundaries is never balance-checked. -/
theorem verifyChannelsBalanceIgnoresBoundaryOnlyChannels [CommRing F] [DecidableEq F]
    (flushes : List Flush) (flushProducts : List F) (boundaries : List (Boundary F))
    (mixingChallenge : F) (permutationChallenges : Nat → F) (c : Nat)
    (h : ∀ f ∈ flushes, f.channelId ≠ c) :
    verifyChannelsBalance flushes flushProducts boundaries
      mixingChallenge permutationChallenges =
    verifyChannelsBalance flushes flushProducts
      (boundaries.filter (fun b => decide (b.channelId ≠ c)))
      mixingChallenge permutationChallenges := by
  unfold verifyChannelsBalance
  by_cases hlen : flushProducts.length ≠ flushes.length
  · rw [if_pos hlen, if_pos hlen]
  · rw [if_neg hlen, if_neg hlen]
    refine (vcbLoopFilter mixingChallenge permutationChallenges c boundaries
      (flushes.zip flushProducts).length _ (le_refl _) ?_).symm
    intro fp hfp
    exact h fp.1 (List.of_mem_zip hfp).1

/-- Witness for C10: with no flushes at all, a boundary-only channel with
differing pull and push products (pull 1, push 5) is invisible to the
check, and verification accepts. -/
theorem verifyChannelsBalanceIgnoresBoundaryOnlyChannelsWitness :
    (verifyChannelsBalance ([] : List Flush) ([] : List Int)
        [{ values := [5], channelId := 0, direction := .push, multiplicity := 1 }]
        1 (fun _ => 0) =
      verifyChannelsBalance [] []
        (([{ values := [5], channelId := 0, direction := .push, multiplicity := 1 }] :
            List (Boundary Int)).filter (fun b => decide (b.channelId ≠ 0)))
        1 (fun _ => 0)) ∧
    verifyChannelsBalance ([] : List Flush) ([] : List Int)
        [{ values := [5], channelId := 0, direction := .push, multiplicity := 1 }]
        1 (fun _ => 0) = .ok () ∧
    (boundaryProducts
        ([{ values := [5], channelId := 0, direction := .push, multiplicity := 1 }] :
          List (Boundary Int)) 1 (fun _ => 0) 0).1 ≠
      (boundaryProducts
        ([{ values := [5], channelId := 0, direction := .push, multiplicity := 1 }] :
          List (Boundary Int)) 1 (fun _ => 0) 0).2 :=
  ⟨verifyChannelsBalanceIgnoresBoundaryOnlyChannels [] [] _ 1 (fun _ => 0) 0
      (by intro f hf; cases hf),
   by simp [verifyChannelsBalance, vcbLoop],
   by decide⟩

/-! Spec-side definitions and lemmas for C2.  These transcribe the claim's
acceptance condition (they are compared against the embedded
`verify_channels_balance`): a row tuple `(v_0 .. v_{k-1})` is mixed as
`permutation_challenge[channel] + Σ v_i · mixing_challenge^i`, and per
channel the pull-side product (boundaries and flush products) must equal
the push-side product. -/

/-- The claim's mixing formula. -/
def specMixed [CommRing F] (permChallenge mixingChallenge : F) (values : List F) : F :=
  permChallenge + ∑ i ∈ Finset.range values.length, values.getD i 0 * mixingChallenge ^ i

theorem mixedFoldGen [CommRing F] (mix : F) :
    ∀ (values : List F) (a m : F),
    (values.foldl (fun sm v => (sm.1 + sm.2 * v, sm.2 * mix)) (a, m)).1 =
    a + m * ∑ i ∈ Finset.range values.length, values.getD i 0 * mix ^ i := by
  intro values
  induction values with
  | nil => intro a m; simp
  | cons v vs ih =>
    intro a m
    simp only [List.foldl_cons]
    rw [ih (a + m * v) (m * mix)]
    rw [List.length_cons, Finset.sum_range_succ']
    have h1 : ∀ i, (v :: vs).getD (i + 1) 0 = vs.getD i 0 := fun _ => rfl
    simp only [h1, pow_zero, pow_succ]
    have h2 : (∑ i ∈ Finset.range vs.length, vs.getD i 0 * (mix ^ i * mix)) =
        (∑ i ∈ Finset.range vs.length, vs.getD i 0 * mix ^ i) * mix := by
      rw [Finset.sum_mul]
      exact Finset.sum_congr rfl (fun i _ => by ring)
    rw [h2]
    have h3 : (v :: vs).getD 0 0 = v := rfl
    rw [h3]
    ring

/-- The source's running fold computes exactly the claim's mixing
formula. -/
theorem mixedValueEqSpec [CommRing F] (permChallenge mix : F) (values : List F) :
    mixedValue permChallenge mix values = specMixed permChallenge mix values := by
  unfold mixedValue specMixed
  rw [mixedFoldGen mix values permChallenge 1]
  ring

/-- The claim's boundary-side product for one channel and direction. -/
def specBoundaryProd [CommRing F] (boundaries : List (Boundary F)) (mix : F)
    (perm : Nat → F) (c : Nat) (d : FlushDirection) : F :=
  ((boundaries.filter (fun b => decide (b.channelId = c ∧ b.direction = d))).map
    (fun b => specMixed (perm c) mix b.values ^ b.multiplicity)).prod

/-- The claimed flush products of one channel and direction, read off a
zipped (flush, claimed product) list. -/
def pairsProd [CommRing F] (l : List (Flush × F)) (c : Nat) (d : FlushDirection) : F :=
  ((l.filter (fun fp => decide (fp.1.channelId = c ∧ fp.1.direction = d))).map Prod.snd).prod

/-- The claim's acceptance condition for one channel over a zipped
(flush, claimed product) list: pull-side boundary product times pull-side
flush products equals the push-side counterpart. -/
def PairsBalanced [CommRing F] (boundaries : List (Boundary F)) (mix : F)
    (perm : Nat → F) (l : List (Flush × F)) (c : Nat) : Prop :=
  specBoundaryProd boundaries mix perm c .pull * pairsProd l c .pull =
    specBoundaryProd boundaries mix perm c .push * pairsProd l c .push

/-- The claim's acceptance condition for one channel. -/
def SpecChannelBalanced [CommRing F] (flushes : List Flush) (flushProducts : List F)
    (boundaries : List (Boundary F)) (mix : F) (perm : Nat → F) (c : Nat) : Prop :=
  PairsBalanced boundaries mix perm (flushes.zip flushProducts) c

theorem boundaryProductsFoldGen [CommRing F] (mix : F) (perm : Nat → F) (c : Nat) :
    ∀ (boundaries : List (Boundary F)) (a b : F),
    boundaries.foldl
      (fun pp bd =>
        if bd.channelId = c then
          let mixedWithMult := mixedValue (perm c) mix bd.values ^ bd.multiplicity
          match bd.direction with
          | .pull => (pp.1 * mixedWithMult, pp.2)
          | .push => (pp.1, pp.2 * mixedWithMult)
        else pp) (a, b) =
    (a * specBoundaryProd boundaries mix perm c .pull,
     b * specBoundaryProd boundaries mix perm c .push) := by
  intro boundaries
  induction boundaries with
  | nil => intro a b; simp [specBoundaryProd]
  | cons bd rest ih =>
    intro a b
    simp only [List.foldl_cons]
    by_cases hch : bd.channelId = c
    · by_cases hdir : bd.direction = FlushDirection.pull
      · have hstep : (bd :: rest).filter
            (fun x => decide (x.channelId = c ∧ x.direction = FlushDirection.pull)) =
            bd :: rest.filter
              (fun x => decide (x.channelId = c ∧ x.direction = FlushDirection.pull)) := by
          simp [List.filter_cons, hch, hdir]
        have hstep2 : (bd :: rest).filter
            (fun x => decide (x.channelId = c ∧ x.direction = FlushDirection.push)) =
            rest.filter
              (fun x => decide (x.channelId = c ∧ x.direction = FlushDirection.push)) := by
          have : bd.direction ≠ FlushDirection.push := by
            cases hd : bd.direction <;> simp_all
          simp [List.filter_cons, this]
        rw [if_pos hch]
        cases hd : bd.direction with
        | pull =>
          rw [ih]
          unfold specBoundaryProd
          rw [hstep, hstep2]
          simp only [List.map_cons, List.prod_cons]
          rw [mixedValueEqSpec, Prod.mk.injEq]
          constructor <;> ring
        | push => exact absurd hd (by simp [hdir])
      · have hpush : bd.direction = FlushDirection.push := by
          cases hd : bd.direction <;> simp_all
        have hstep : (bd :: rest).filter
            (fun x => decide (x.channelId = c ∧ x.direction = FlushDirection.push)) =
            bd :: rest.filter
              (fun x => decide (x.channelId = c ∧ x.direction = FlushDirection.push)) := by
          simp [List.filter_cons, hch, hpush]
        have hstep2 : (bd :: rest).filter
            (fun x => decide (x.channelId = c ∧ x.direction = FlushDirection.pull)) =
            rest.filter
              (fun x => decide (x.channelId = c ∧ x.direction = FlushDirection.pull)) := by
          simp [List.filter_cons, hdir]
        rw [if_pos hch]
        cases hd : bd.direction with
        | push =>
          rw [ih]
          unfold specBoundaryProd
          rw [hstep, hstep2]
          simp only [List.map_cons, List.prod_cons]
          rw [mixedValueEqSpec, Prod.mk.injEq]
          constructor <;> ring
        | pull => exact absurd hd hdir
    · have hstep : ∀ d : FlushDirection, (bd :: rest).filter
          (fun x => decide (x.channelId = c ∧ x.direction = d)) =
          rest.filter (fun x => decide (x.channelId = c ∧ x.direction = d)) := by
        intro d
        simp [List.filter_cons, hch]
      rw [if_neg hch, ih]
      unfold specBoundaryProd
      rw [hstep, hstep]

/-- `boundaryProducts` computes exactly the claim's per-direction boundary
products. -/
theorem boundaryProductsEqSpec [CommRing F] (boundaries : List (Boundary F))
    (mix : F) (perm : Nat → F) (c : Nat) :
    boundaryProducts boundaries mix perm c =
      (specBoundaryProd boundaries mix perm c .pull,
       specBoundaryProd boundaries mix perm c .push) := by
  unfold boundaryProducts
  rw [boundaryProductsFoldGen mix perm c boundaries 1 1]
  simp

/-- The per-direction product of the claimed values of a run of flushes. -/
def dirProd [CommRing F] (grp : List (Flush × F)) (d : FlushDirection) : F :=
  ((grp.filter (fun fp => decide (fp.1.direction = d))).map Prod.snd).prod

theorem groupFoldEq [CommRing F] :
    ∀ (grp : List (Flush × F)) (a b : F),
    grp.foldl (fun pp fp => match fp.1.direction with
      | .pull => (pp.1 * fp.2, pp.2)
      | .push => (pp.1, pp.2 * fp.2)) (a, b) =
    (a * dirProd grp .pull, b * dirProd grp .push) := by
  intro grp
  induction grp with
  | nil => intro a b; simp [dirProd]
  | cons fp rest ih =>
    intro a b
    simp only [List.foldl_cons]
    cases hd : fp.1.direction with
    | pull =>
      rw [ih]
      unfold dirProd
      have h1 : (fp :: rest).filter (fun x => decide (x.1.direction = FlushDirection.pull)) =
          fp :: rest.filter (fun x => decide (x.1.direction = FlushDirection.pull)) := by
        simp [List.filter_cons, hd]
      have h2 : (fp :: rest).filter (fun x => decide (x.1.direction = FlushDirection.push)) =
          rest.filter (fun x => decide (x.1.direction = FlushDirection.push)) := by
        simp [List.filter_cons, hd]
      rw [h1, h2]
      simp only [List.map_cons, List.prod_cons, Prod.mk.injEq]
      constructor <;> ring
    | push =>
      rw [ih]
      unfold dirProd
      have h1 : (fp :: rest).filter (fun x => decide (x.1.direction = FlushDirection.pull)) =
          rest.filter (fun x => decide (x.1.direction = FlushDirection.pull)) := by
        simp [List.filter_cons, hd]
      have h2 : (fp :: rest).filter (fun x => decide (x.1.direction = FlushDirection.push)) =
          fp :: rest.filter (fun x => decide (x.1.direction = FlushDirection.push)) := by
        simp [List.filter_cons, hd]
      rw [h1, h2]
      simp only [List.map_cons, List.prod_cons, Prod.mk.injEq]
      constructor <;> ring

theorem pairsProdAppend [CommRing F] (l₁ l₂ : List (Flush × F)) (c : Nat)
    (d : FlushDirection) :
    pairsProd (l₁ ++ l₂) c d = pairsProd l₁ c d * pairsProd l₂ c d := by
  unfold pairsProd
  rw [List.filter_append, List.map_append, List.prod_append]

theorem pairsProdAllChannel [CommRing F] (grp : List (Flush × F)) (c : Nat)
    (d : FlushDirection) (h : ∀ fp ∈ grp, fp.1.channelId = c) :
    pairsProd grp c d = dirProd grp d := by
  unfold pairsProd dirProd
  congr 1
  apply congrArg
  apply List.filter_congr
  intro fp hfp
  simp [h fp hfp]

theorem pairsProdNoChannel [CommRing F] (grp : List (Flush × F)) (c : Nat)
    (d : FlushDirection) (h : ∀ fp ∈ grp, fp.1.channelId ≠ c) :
    pairsProd grp c d = 1 := by
  unfold pairsProd
  have : grp.filter (fun fp => decide (fp.1.channelId = c ∧ fp.1.direction = d)) = [] := by
    rw [List.filter_eq_nil_iff]
    intro fp hfp
    simp [h fp hfp]
  rw [this]
  simp

theorem dropWhileHeadFalse (p : α → Bool) :
    ∀ (l : List α) (h : α) (t : List α), l.dropWhile p = h :: t → p h = false := by
  intro l
  induction l with
  | nil => intro h t hd; cases hd
  | cons a l ih =>
    intro h t hd
    rw [List.dropWhile_cons] at hd
    by_cases ha : p a = true
    · rw [if_pos ha] at hd
      exact ih h t hd
    · rw [if_neg ha] at hd
      cases hd
      simpa using ha

theorem dropWhileChannelGt (c₀ : Nat) (rest : List (Flush × F))
    (hge : ∀ x ∈ rest, c₀ ≤ x.1.channelId)
    (hp : List.Pairwise (fun (a b : Flush × F) => a.1.channelId ≤ b.1.channelId) rest) :
    ∀ x ∈ rest.dropWhile (fun fp => decide (fp.1.channelId = c₀)),
      c₀ < x.1.channelId := by
  intro x hx
  match hdw : rest.dropWhile (fun fp => decide (fp.1.channelId = c₀)) with
  | [] => rw [hdw] at hx; cases hx
  | h₀ :: tail =>
    rw [hdw] at hx
    have hsub : (h₀ :: tail).Sublist rest := by
      rw [← hdw]; exact rest.dropWhile_sublist _
    have hh₀ : h₀.1.channelId ≠ c₀ := by
      have := dropWhileHeadFalse (fun fp => decide (fp.1.channelId = c₀)) rest h₀ tail hdw
      simpa using this
    have hh₀ge : c₀ ≤ h₀.1.channelId := hge h₀ (hsub.subset (List.mem_cons_self _ _))
    have hh₀gt : c₀ < h₀.1.channelId := by omega
    rcases List.mem_cons.mp hx with hxh | hxt
    · subst hxh; exact hh₀gt
    · have hp' : List.Pairwise (fun (a b : Flush × F) => a.1.channelId ≤ b.1.channelId)
          (h₀ :: tail) := hp.sublist hsub
      have := (List.pairwise_cons.mp hp').1 x hxt
      omega

/-- One iteration of the `verify_channels_balance` loop on a channel-sorted
list: compare the claim's per-channel products for the head's channel and
either fail or continue past that channel's run. -/
theorem vcbLoopConsEq [CommRing F] [DecidableEq F] (boundaries : List (Boundary F))
    (mix : F) (perm : Nat → F) (f : Flush) (p : F) (rest : List (Flush × F))
    (hp : List.Pairwise (fun (a b : Flush × F) => a.1.channelId ≤ b.1.channelId)
      ((f, p) :: rest)) :
    vcbLoop boundaries mix perm ((f, p) :: rest) =
      if specBoundaryProd boundaries mix perm f.channelId .pull *
            pairsProd ((f, p) :: rest) f.channelId .pull =
          specBoundaryProd boundaries mix perm f.channelId .push *
            pairsProd ((f, p) :: rest) f.channelId .push
      then vcbLoop boundaries mix perm
        (rest.dropWhile (fun fp => fp.1.channelId = f.channelId))
      else .err (.channelUnbalanced f.channelId) := by
  have hmemrest : ∀ x ∈ rest, f.channelId ≤ x.1.channelId :=
    (List.pairwise_cons.mp hp).1
  have hprest := (List.pairwise_cons.mp hp).2
  have hgrpch : ∀ fp ∈ (f, p) :: rest.takeWhile
      (fun fp => fp.1.channelId = f.channelId), fp.1.channelId = f.channelId := by
    intro fp hfp
    rcases List.mem_cons.mp hfp with h | h
    · subst h; rfl
    · have := List.mem_takeWhile_imp h
      simpa using this
  have hrestgt : ∀ x ∈ rest.dropWhile (fun fp => fp.1.channelId = f.channelId),
      f.channelId < x.1.channelId :=
    dropWhileChannelGt f.channelId rest hmemrest hprest
  have hldecomp : (f, p) :: rest =
      ((f, p) :: rest.takeWhile (fun fp => fp.1.channelId = f.channelId)) ++
        rest.dropWhile (fun fp => fp.1.channelId = f.channelId) := by
    simp [List.takeWhile_append_dropWhile]
  have hpp : ∀ d, pairsProd ((f, p) :: rest) f.channelId d =
      dirProd ((f, p) :: rest.takeWhile (fun fp => fp.1.channelId = f.channelId)) d := by
    intro d
    conv_lhs => rw [hldecomp]
    rw [pairsProdAppend, pairsProdAllChannel _ _ _ hgrpch,
      pairsProdNoChannel _ _ _ (fun x hx => by have := hrestgt x hx; omega), mul_one]
  simp only [vcbLoop]
  rw [boundaryProductsEqSpec, groupFoldEq, hpp FlushDirection.pull, hpp FlushDirection.push]
  dsimp only
  by_cases hbal :
    specBoundaryProd boundaries mix perm f.channelId FlushDirection.pull *
        dirProd ((f, p) :: rest.takeWhile (fun fp => fp.1.channelId = f.channelId))
          FlushDirection.pull =
      specBoundaryProd boundaries mix perm f.channelId FlushDirection.push *
        dirProd ((f, p) :: rest.takeWhile (fun fp => fp.1.channelId = f.channelId))
          FlushDirection.push
  · rw [if_neg (not_not_intro hbal), if_pos hbal]
  · rw [if_pos hbal, if_neg hbal]

theorem vcbLoopCharacterization [CommRing F] [DecidableEq F]
    (boundaries : List (Boundary F)) (mix : F) (perm : Nat → F) :
    ∀ (n : Nat) (l : List (Flush × F)), l.length ≤ n →
    List.Pairwise (fun (a b : Flush × F) => a.1.channelId ≤ b.1.channelId) l →
    ((vcbLoop boundaries mix perm l = .ok () ↔
      ∀ c ∈ l.map (fun fp => fp.1.channelId), PairsBalanced boundaries mix perm l c) ∧
     (vcbLoop boundaries mix perm l = .ok () ∨
      ∃ c, c ∈ l.map (fun fp => fp.1.channelId) ∧
        vcbLoop boundaries mix perm l = .err (.channelUnbalanced c) ∧
        ¬ PairsBalanced boundaries mix perm l c)) := by
  intro n
  induction n with
  | zero =>
    intro l hl _
    have hnil : l = [] := List.length_eq_zero.mp (Nat.le_zero.mp hl)
    subst hnil
    exact ⟨by simp [vcbLoop], Or.inl (by simp [vcbLoop])⟩
  | succ n ih =>
    intro l hl hp
    match l with
    | [] => exact ⟨by simp [vcbLoop], Or.inl (by simp [vcbLoop])⟩
    | (f, p) :: rest =>
      have hstep := vcbLoopConsEq boundaries mix perm f p rest hp
      have hmemrest := (List.pairwise_cons.mp hp).1
      have hprest := (List.pairwise_cons.mp hp).2
      have hgrpch : ∀ fp ∈ (f, p) :: rest.takeWhile
          (fun fp => fp.1.channelId = f.channelId), fp.1.channelId = f.channelId := by
        intro fp hfp
        rcases List.mem_cons.mp hfp with h | h
        · subst h; rfl
        · simpa using List.mem_takeWhile_imp h
      have hrestgt := dropWhileChannelGt f.channelId rest hmemrest hprest
      have hldecomp : (f, p) :: rest =
          ((f, p) :: rest.takeWhile (fun fp => fp.1.channelId = f.channelId)) ++
            rest.dropWhile (fun fp => fp.1.channelId = f.channelId) := by
        simp [List.takeWhile_append_dropWhile]
      have htransfer : ∀ c, c ≠ f.channelId →
          (PairsBalanced boundaries mix perm ((f, p) :: rest) c ↔
          PairsBalanced boundaries mix perm
            (rest.dropWhile (fun fp => fp.1.channelId = f.channelId)) c) := by
        intro c hc
        have hprodeq : ∀ d, pairsProd ((f, p) :: rest) c d =
            pairsProd (rest.dropWhile (fun fp => fp.1.channelId = f.channelId)) c d := by
          intro d
          conv_lhs => rw [hldecomp]
          rw [pairsProdAppend, pairsProdNoChannel _ _ _
            (fun x hx => by have := hgrpch x hx; omega), one_mul]
        unfold PairsBalanced
        rw [hprodeq FlushDirection.pull, hprodeq FlushDirection.push]
      have hgtdrop : ∀ c ∈ (rest.dropWhile (fun fp => fp.1.channelId = f.channelId)).map
          (fun fp => fp.1.channelId), c ≠ f.channelId := by
        intro c hc
        rcases List.mem_map.mp hc with ⟨fp, hfp, hchc⟩
        have := hrestgt fp hfp
        omega
      have hsubmap : ∀ c ∈ (rest.dropWhile (fun fp => fp.1.channelId = f.channelId)).map
          (fun fp => fp.1.channelId), c ∈ ((f, p) :: rest).map (fun fp => fp.1.channelId) := by
        intro c hc
        have hsl : (rest.dropWhile (fun fp => fp.1.channelId = f.channelId)).Sublist
            ((f, p) :: rest) := (rest.dropWhile_sublist _).trans (List.sublist_cons_self _ _)
        exact (hsl.map (fun fp => fp.1.channelId)).subset hc
      have hmemiff : (∀ c ∈ ((f, p) :: rest).map (fun fp => fp.1.channelId),
            PairsBalanced boundaries mix perm ((f, p) :: rest) c) ↔
          (PairsBalanced boundaries mix perm ((f, p) :: rest) f.channelId ∧
            ∀ c ∈ (rest.dropWhile (fun fp => fp.1.channelId = f.channelId)).map
              (fun fp => fp.1.channelId),
              PairsBalanced boundaries mix perm ((f, p) :: rest) c) := by
        constructor
        · intro hall
          exact ⟨hall f.channelId (by simp), fun c hc => hall c (hsubmap c hc)⟩
        · rintro ⟨hc₀, hrest⟩ c hc
          rcases List.mem_map.mp hc with ⟨fp, hfp, hchc⟩
          rw [hldecomp] at hfp
          rcases List.mem_append.mp hfp with hfo | hfo
          · rw [← hchc, hgrpch fp hfo]
            exact hc₀
          · exact hrest c (by rw [← hchc]; exact List.mem_map.mpr ⟨fp, hfo, rfl⟩)
      have hlen' : (rest.dropWhile (fun fp => fp.1.channelId = f.channelId)).length ≤ n := by
        have := lengthDropWhileLe
          (fun (fp : Flush × F) => decide (fp.1.channelId = f.channelId)) rest
        simp only [List.length_cons] at hl
        omega
      have hpdrop : List.Pairwise (fun (a b : Flush × F) => a.1.channelId ≤ b.1.channelId)
          (rest.dropWhile (fun fp => fp.1.channelId = f.channelId)) :=
        hprest.sublist (rest.dropWhile_sublist _)
      have ihd := ih (rest.dropWhile (fun fp => fp.1.channelId = f.channelId)) hlen' hpdrop
      by_cases hbal :
        specBoundaryProd boundaries mix perm f.channelId FlushDirection.pull *
            pairsProd ((f, p) :: rest) f.channelId FlushDirection.pull =
          specBoundaryProd boundaries mix perm f.channelId FlushDirection.push *
            pairsProd ((f, p) :: rest) f.channelId FlushDirection.push
      · have hrun : vcbLoop boundaries mix perm ((f, p) :: rest) =
            vcbLoop boundaries mix perm
              (rest.dropWhile (fun fp => fp.1.channelId = f.channelId)) := by
          rw [hstep, if_pos hbal]
        constructor
        · rw [hrun, ihd.1, hmemiff]
          constructor
          · intro hall
            exact ⟨hbal, fun c hc => (htransfer c (hgtdrop c hc)).mpr (hall c hc)⟩
          · rintro ⟨_, hrest⟩ c hc
            exact (htransfer c (hgtdrop c hc)).mp (hrest c hc)
        · rcases ihd.2 with hok | ⟨c, hcmem, herr, hnbal⟩
          · left; rw [hrun]; exact hok
          · right
            refine ⟨c, hsubmap c hcmem, by rw [hrun]; exact herr, ?_⟩
            intro hcon
            exact hnbal ((htransfer c (hgtdrop c hcmem)).mp hcon)
      · have hrun : vcbLoop boundaries mix perm ((f, p) :: rest) =
            .err (.channelUnbalanced f.channelId) := by
          rw [hstep, if_neg hbal]
        refine ⟨?_, Or.inr ⟨f.channelId, by simp, hrun, hbal⟩⟩
        rw [hrun]
        constructor
        · intro hcon; exact RRes.noConfusion hcon
        · intro hall
          exact absurd (hall f.channelId (by simp)) hbal

/-- C2: with the flushes sorted by channel id (the caller sorts them before
calling) and matching product-list length, `verify_channels_balance`
accepts iff, for every channel id appearing in a flush, the product over
pull-direction boundaries (each mixed as
`permutation_challenge[channel] + Σ v_i · mixing_challenge^i`, raised to
its multiplicity) and pull-direction flush products equals the push-side
counterpart; any mismatch yields a channel-unbalanced error; a
flush-products list of the wrong length yields the flush-product-count
error. -/
theorem verifyChannelsBalanceCharacterization [CommRing F] [DecidableEq F]
    (flushes : List Flush) (flushProducts : List F) (boundaries : List (Boundary F))
    (mix : F) (perm : Nat → F)
    (hsorted : List.Pairwise (fun f g => f.channelId ≤ g.channelId) flushes)
    (hlen : flushProducts.length = flushes.length) :
    (verifyChannelsBalance flushes flushProducts boundaries mix perm = .ok () ↔
      ∀ c ∈ flushes.map Flush.channelId,
        SpecChannelBalanced flushes flushProducts boundaries mix perm c) ∧
    (verifyChannelsBalance flushes flushProducts boundaries mix perm = .ok () ∨
      ∃ c, c ∈ flushes.map Flush.channelId ∧
        verifyChannelsBalance flushes flushProducts boundaries mix perm =
          .err (.channelUnbalanced c) ∧
        ¬ SpecChannelBalanced flushes flushProducts boundaries mix perm c) ∧
    (∀ ps : List F, ps.length ≠ flushes.length →
      verifyChannelsBalance flushes ps boundaries mix perm =
        .err .incorrectNumberOfFlushProducts) := by
  have hzip_pw : List.Pairwise (fun (a b : Flush × F) => a.1.channelId ≤ b.1.channelId)
      (flushes.zip flushProducts) := by
    have hs2 := hsorted
    rw [← List.map_fst_zip flushes flushProducts (le_of_eq hlen.symm)] at hs2
    have h3 := List.pairwise_map.mp hs2
    exact h3
  have hmapch : (flushes.zip flushProducts).map (fun fp => fp.1.channelId) =
      flushes.map Flush.channelId := by
    rw [show (fun (fp : Flush × F) => fp.1.channelId) =
      (Flush.channelId ∘ Prod.fst) from rfl]
    rw [← List.map_map, List.map_fst_zip _ _ (le_of_eq hlen.symm)]
  have hmain := vcbLoopCharacterization boundaries mix perm
    (flushes.zip flushProducts).length (flushes.zip flushProducts) (le_refl _) hzip_pw
  rw [hmapch] at hmain
  have hvcb : verifyChannelsBalance flushes flushProducts boundaries mix perm =
      vcbLoop boundaries mix perm (flushes.zip flushProducts) := by
    unfold verifyChannelsBalance
    rw [if_neg (by simp [hlen])]
  refine ⟨?_, ?_, ?_⟩
  · rw [hvcb]
    exact hmain.1
  · rw [hvcb]
    exact hmain.2
  · intro ps hps
    unfold verifyChannelsBalance
    rw [if_pos hps]

/-- Witness for C2: one push flush with claimed product 5 on channel 0
balanced against one pull boundary with tuple `[5]` (mixed value
`0 + 5·1^0 = 5`), over the integers: the verifier accepts. -/
theorem verifyChannelsBalanceCharacterizationWitness :
    verifyChannelsBalance
        [{ oracles := [0], channelId := 0, direction := .push, count := 1,
           multiplicity := 1 }]
        ([5] : List Int)
        [{ values := [5], channelId := 0, direction := .pull, multiplicity := 1 }]
        1 (fun _ => 0) = .ok () := by
  apply (verifyChannelsBalanceCharacterization _ _ _ 1 (fun _ => 0)
    (by simp) (by rfl)).1.mpr
  intro c hc
  simp only [List.map_cons, List.map_nil, List.mem_singleton] at hc
  subst hc
  unfold SpecChannelBalanced PairsBalanced specBoundaryProd pairsProd specMixed
  decide

/-! Concrete data for C5. -/

/-- A small valid constraint system whose oracle graph holds one committed
oracle and one shifted oracle derived from it (built exactly as
`add_committed` + `add_shifted` would build them). -/
def csRoundTripExample : ConstraintSystem Int :=
  { oracles := { oracles := [
      .committed 0 1 0 none,
      .shifted 1 (.committed 0 1 0 none) 1 1 .circularLeft none] },
    tableConstraints := [],
    nonZeroOracleIds := [],
    flushes := [],
    maxChannelId := 0 }

/-- A field-element serializer stand-in (no field element occurs in
`csRoundTripExample`, so its choice is immaterial). -/
def serInt : Int → List Nat := fun _ => [0]

def deserInt : List Nat → Option Int := fun l => if l.length = 1 then some 0 else none

/-- C5 (code bug): the claim says decode(encode(x)) = x for every valid
`ConstraintSystem`, `Flush` and `Proof`.  `Flush` and `Proof` do round-trip
(second and third conjuncts), but `ConstraintSystem` does not: for the
`Shifted` (and `Projected`/`Packed`/`LinearCombination`/`ZeroPadded`)
variants, `MultilinearPolyOracle::write` emits the raw 8-byte `usize` id
and no length prefix for the struct buffer, while `read` expects a 4-byte
id followed by a 4-byte buffer length, so decoding a freshly encoded
system containing a shifted oracle reads length 0 from the id's high bytes
and fails (first conjunct: the write succeeds, the read of its output
fails). -/
theorem constraintSystemRoundTripFails :
    (constraintSystemWrite serInt csRoundTripExample).isSome = true ∧
    ((constraintSystemWrite serInt csRoundTripExample).bind
      (fun bs => (constraintSystemRead deserInt bs).map Prod.fst)).isNone = true ∧
    flushRead (flushWrite { oracles := [0, 1], channelId := 2, direction := .pull,
                            count := 3, multiplicity := 4 }) =
      some ({ oracles := [0, 1], channelId := 2, direction := .pull,
              count := 3, multiplicity := 4 }, []) ∧
    (proofWrite { transcript := [1, 2, 3], advice := [4, 5] }).bind proofRead =
      some ({ transcript := [1, 2, 3], advice := [4, 5] }, []) := by
  refine ⟨rfl, by decide, rfl, rfl⟩

/-! Lemmas for C1 and C9: structure of `make_flush_oracles` runs. -/

theorem addLinCombAppend [CommRing F] (s : MultilinearOracleSet F) (nVars : Nat)
    (offset : F) (inner : List (Nat × F)) (name : Option String)
    (s' : MultilinearOracleSet F) (id : Nat)
    (h : s.addLinearCombinationWithOffset nVars offset inner name = .ok (s', id)) :
    ∃ o, s'.oracles = s.oracles ++ [o] := by
  unfold MultilinearOracleSet.addLinearCombinationWithOffset at h
  cases hres : resolveLinCombInner s nVars inner with
  | panic => rw [hres] at h; cases h
  | err e => rw [hres] at h; cases h
  | ok resolved =>
    rw [hres] at h
    simp only [RRes.monad_bind_eq_bind, RRes.bind_ok, RRes.pure_eq_ok,
      MultilinearOracleSet.addToSet, RRes.ok.injEq, Prod.mk.injEq] at h
    obtain ⟨h1, -⟩ := h
    exact ⟨_, by rw [← h1]⟩

theorem makeOneFlushOracleAppend [CommRing F] (s : MultilinearOracleSet F)
    (mix : F) (channelId : Nat) (permCh : F) (powers : List F) (f : Flush)
    (s' : MultilinearOracleSet F) (powers' : List F) (id : Nat)
    (h : makeOneFlushOracle s mix channelId permCh powers f = .ok (s', powers', id)) :
    ∃ o, s'.oracles = s.oracles ++ [o] := by
  unfold makeOneFlushOracle at h
  cases ho : f.oracles with
  | nil => rw [ho] at h; cases h
  | cons firstOracle restOracles =>
    rw [ho] at h
    dsimp only at h
    cases hnv : s.nVarsAt firstOracle with
    | none => rw [hnv] at h; cases h
    | some nVars =>
      rw [hnv] at h
      dsimp only at h
      cases hch : checkFlushNvars s nVars restOracles with
      | panic => rw [hch] at h; cases h
      | err e => rw [hch] at h; cases h
      | ok u =>
        rw [hch] at h
        simp only [RRes.monad_bind_eq_bind, RRes.bind_ok] at h
        cases hlc : MultilinearOracleSet.addLinearCombinationWithOffset s nVars permCh
            ((firstOracle :: restOracles).zip
              (extendPowers mix powers (firstOracle :: restOracles).length))
            (some ("flush channel_id=" ++ toString channelId)) with
        | panic => rw [hlc] at h; cases h
        | err e => rw [hlc] at h; cases h
        | ok pr =>
          obtain ⟨slc, idlc⟩ := pr
          rw [hlc] at h
          simp only [RRes.bind_ok, RRes.pure_eq_ok, RRes.ok.injEq, Prod.mk.injEq] at h
          obtain ⟨h1, -, -⟩ := h
          obtain ⟨o, hoeq⟩ := addLinCombAppend s nVars permCh _ _ slc idlc hlc
          exact ⟨o, by rw [← h1, hoeq]⟩

theorem makeFlushOraclesChannelSplit [CommRing F] (mix : F) (channelId : Nat) (permCh : F) :
    ∀ (flushes : List Flush) (s : MultilinearOracleSet F) (powers : List F)
      (s' : MultilinearOracleSet F) (powers' : List F) (ids : List Nat) (rem : List Flush),
    makeFlushOraclesChannel mix channelId permCh s powers flushes =
      .ok (s', powers', ids, rem) →
    ∃ processed ext, flushes = processed ++ rem ∧ ids.length = processed.length ∧
      (∀ f ∈ processed, f.channelId = channelId) ∧
      (∀ g rem2, rem = g :: rem2 → g.channelId ≠ channelId) ∧
      s'.oracles = s.oracles ++ ext := by
  intro flushes
  induction flushes with
  | nil =>
    intro s powers s' powers' ids rem h
    simp only [makeFlushOraclesChannel, RRes.ok.injEq, Prod.mk.injEq] at h
    obtain ⟨h1, -, h3, h4⟩ := h
    refine ⟨[], [], by simp [← h4], by simp [← h3], by simp, ?_, by simp [← h1]⟩
    intro g rem2 hg
    rw [← h4] at hg
    cases hg
  | cons f rest ih =>
    intro s powers s' powers' ids rem h
    simp only [makeFlushOraclesChannel] at h
    by_cases hf : f.channelId = channelId
    · rw [if_pos hf] at h
      cases hone : makeOneFlushOracle s mix channelId permCh powers f with
      | panic => rw [hone] at h; cases h
      | err e => rw [hone] at h; cases h
      | ok tr =>
        obtain ⟨s₁, powers₁, id₁⟩ := tr
        rw [hone] at h
        simp only [RRes.monad_bind_eq_bind, RRes.bind_ok] at h
        cases hrec : makeFlushOraclesChannel mix channelId permCh s₁ powers₁ rest with
        | panic => rw [hrec] at h; cases h
        | err e => rw [hrec] at h; cases h
        | ok qr =>
          obtain ⟨s₂, powers₂, ids₂, rem₂⟩ := qr
          rw [hrec] at h
          simp only [RRes.bind_ok, RRes.pure_eq_ok, RRes.ok.injEq, Prod.mk.injEq] at h
          obtain ⟨h1, -, h3, h4⟩ := h
          obtain ⟨processed₂, ext₂, hp1, hp2, hp3, hp4, hp5⟩ :=
            ih s₁ powers₁ s₂ powers₂ ids₂ rem₂ hrec
          obtain ⟨o₁, ho₁⟩ := makeOneFlushOracleAppend s mix channelId permCh powers f
            s₁ powers₁ id₁ hone
          refine ⟨f :: processed₂, o₁ :: ext₂, ?_, ?_, ?_, ?_, ?_⟩
          · rw [← h4, List.cons_append, ← hp1]
          · rw [← h3]; simp [hp2]
          · intro g hg
            rcases List.mem_cons.mp hg with hgf | hgp
            · subst hgf; exact hf
            · exact hp3 g hgp
          · intro g rem2 hg
            exact hp4 g rem2 (by rw [h4]; exact hg)
          · rw [← h1, hp5, ho₁, List.append_assoc, List.singleton_append]
    · rw [if_neg hf] at h
      simp only [RRes.ok.injEq, Prod.mk.injEq] at h
      obtain ⟨h1, -, h3, h4⟩ := h
      refine ⟨[], [], by simp [← h4], by simp [← h3], by simp, ?_, by simp [← h1]⟩
      intro g rem2 hg
      rw [← h4] at hg
      cases hg
      exact hf

theorem makeFlushOraclesLoopStructure [CommRing F] (mix : F) :
    ∀ (perms : List F) (channelId : Nat) (s : MultilinearOracleSet F) (powers : List F)
      (flushes : List Flush) (s' : MultilinearOracleSet F) (ids : List Nat),
    List.Pairwise (fun f g => f.channelId ≤ g.channelId) flushes →
    (∀ f ∈ flushes, channelId ≤ f.channelId) →
    (∀ f ∈ flushes, f.channelId < channelId + perms.length) →
    makeFlushOraclesLoop mix s powers channelId perms flushes = .ok (s', ids) →
    ids.length = flushes.length ∧ ∃ ext, s'.oracles = s.oracles ++ ext := by
  intro perms
  induction perms with
  | nil =>
    intro channelId s powers flushes s' ids hsorted hlo hhi h
    have hnil : flushes = [] := by
      cases flushes with
      | nil => rfl
      | cons f rest =>
        have h1 := hlo f (List.mem_cons_self _ _)
        have h2 := hhi f (List.mem_cons_self _ _)
        simp at h2
        omega
    subst hnil
    simp only [makeFlushOraclesLoop, RRes.ok.injEq, Prod.mk.injEq] at h
    obtain ⟨h1, h2⟩ := h
    exact ⟨by simp [← h2], ⟨[], by simp [← h1]⟩⟩
  | cons permCh restPerms ih =>
    intro channelId s powers flushes s' ids hsorted hlo hhi h
    simp only [makeFlushOraclesLoop] at h
    cases hch : makeFlushOraclesChannel mix channelId permCh s powers flushes with
    | panic => rw [hch] at h; cases h
    | err e => rw [hch] at h; cases h
    | ok tr =>
      obtain ⟨s₁, powers₁, ids₁, rem⟩ := tr
      rw [hch] at h
      simp only [RRes.monad_bind_eq_bind, RRes.bind_ok] at h
      cases hloop : makeFlushOraclesLoop mix s₁ powers₁ (channelId + 1) restPerms rem with
      | panic => rw [hloop] at h; cases h
      | err e => rw [hloop] at h; cases h
      | ok qr =>
        obtain ⟨s₂, ids₂⟩ := qr
        rw [hloop] at h
        simp only [RRes.bind_ok, RRes.pure_eq_ok, RRes.ok.injEq, Prod.mk.injEq] at h
        obtain ⟨h1, h2⟩ := h
        obtain ⟨processed, ext₁, hp1, hp2, hp3, hp4, hp5⟩ :=
          makeFlushOraclesChannelSplit mix channelId permCh flushes s powers
            s₁ powers₁ ids₁ rem hch
        have hremsorted : List.Pairwise (fun f g => f.channelId ≤ g.channelId) rem := by
          rw [hp1] at hsorted
          exact (List.pairwise_append.mp hsorted).2.1
        have hremlo : ∀ f ∈ rem, channelId + 1 ≤ f.channelId := by
          intro f hf
          cases hremc : rem with
          | nil => rw [hremc] at hf; cases hf
          | cons g rem2 =>
            have hgmem : g ∈ flushes := by
              rw [hp1, hremc]
              exact List.mem_append_right processed (List.mem_cons_self g rem2)
            have hglo : channelId ≤ g.channelId := hlo g hgmem
            have hgne := hp4 g rem2 hremc
            rw [hremc] at hf
            rcases List.mem_cons.mp hf with hfg | hfr
            · subst hfg; omega
            · have hps : List.Pairwise (fun a b => a.channelId ≤ b.channelId) (g :: rem2) := by
                rw [hremc] at hremsorted
                exact hremsorted
              have := (List.pairwise_cons.mp hps).1 f hfr
              omega
        have hremhi : ∀ f ∈ rem, f.channelId < (channelId + 1) + restPerms.length := by
          intro f hf
          have := hhi f (by rw [hp1]; exact List.mem_append_right _ hf)
          simp only [List.length_cons] at this
          omega
        obtain ⟨hlen₂, ext₂, hext₂⟩ :=
          ih (channelId + 1) s₁ powers₁ rem s₂ ids₂ hremsorted hremlo hremhi hloop
        constructor
        · rw [← h2, List.length_append, hp2, hlen₂, hp1, List.length_append]
        · exact ⟨ext₁ ++ ext₂, by rw [← h1, hext₂, hp5, List.append_assoc]⟩

/-- On success, `make_flush_oracles` produces one oracle id per flush
(when the sorted flushes' channel ids are all within the permutation
challenge range) and only appends to the oracle graph. -/
theorem makeFlushOraclesStructure [CommRing F] (oracles : MultilinearOracleSet F)
    (flushes : List Flush) (mix : F) (perms : List F)
    (oracles' : MultilinearOracleSet F) (ids : List Nat)
    (hsorted : List.Pairwise (fun f g => f.channelId ≤ g.channelId) flushes)
    (hhi : ∀ f ∈ flushes, f.channelId < perms.length)
    (hok : makeFlushOracles oracles flushes mix perms = .ok (oracles', ids)) :
    ids.length = flushes.length ∧ ∃ ext, oracles'.oracles = oracles.oracles ++ ext := by
  exact makeFlushOraclesLoopStructure mix perms 0 oracles [1] flushes oracles' ids
    hsorted (fun f _ => Nat.zero_le _) (by simpa using hhi) hok

theorem makeFlushOraclesLoopAppend [CommRing F] (mix : F) :
    ∀ (perms : List F) (channelId : Nat) (s : MultilinearOracleSet F) (powers : List F)
      (flushes : List Flush) (s' : MultilinearOracleSet F) (ids : List Nat),
    makeFlushOraclesLoop mix s powers channelId perms flushes = .ok (s', ids) →
    ∃ ext, s'.oracles = s.oracles ++ ext := by
  intro perms
  induction perms with
  | nil =>
    intro channelId s powers flushes s' ids h
    simp only [makeFlushOraclesLoop, RRes.ok.injEq, Prod.mk.injEq] at h
    exact ⟨[], by simp [← h.1]⟩
  | cons permCh restPerms ih =>
    intro channelId s powers flushes s' ids h
    simp only [makeFlushOraclesLoop] at h
    cases hch : makeFlushOraclesChannel mix channelId permCh s powers flushes with
    | panic => rw [hch] at h; cases h
    | err e => rw [hch] at h; cases h
    | ok tr =>
      obtain ⟨s₁, powers₁, ids₁, rem⟩ := tr
      rw [hch] at h
      simp only [RRes.monad_bind_eq_bind, RRes.bind_ok] at h
      cases hloop : makeFlushOraclesLoop mix s₁ powers₁ (channelId + 1) restPerms rem with
      | panic => rw [hloop] at h; cases h
      | err e => rw [hloop] at h; cases h
      | ok qr =>
        obtain ⟨s₂, ids₂⟩ := qr
        rw [hloop] at h
        simp only [RRes.bind_ok, RRes.pure_eq_ok, RRes.ok.injEq, Prod.mk.injEq] at h
        obtain ⟨processed, ext₁, -, -, -, -, hp5⟩ :=
          makeFlushOraclesChannelSplit mix channelId permCh flushes s powers
            s₁ powers₁ ids₁ rem hch
        obtain ⟨ext₂, hext₂⟩ := ih (channelId + 1) s₁ powers₁ rem s₂ ids₂ hloop
        exact ⟨ext₁ ++ ext₂, by rw [← h.1, hext₂, hp5, List.append_assoc]⟩

/-- C9: the verify entry point never mutates the caller's constraint
system.  `verify_with_pcs` destructures `constraint_system.clone()`, so in
this embedding the caller's value is untouched by construction; the only
operations that write to the (cloned) oracle graph during verification are
the ephemeral additions, and this theorem proves they are strictly
append-only: on success `make_flush_oracles` leaves every pre-existing
descriptor in place (the original list is the prefix of the result), and
`add_transparent` (used for the step-mask and equality-indicator
transparents) appends exactly one descriptor.  Constraint sets, flushes and
the non-zero list are never written at all. -/
theorem verifyEphemeralAdditionsAppendOnly [CommRing F]
    (oracles : MultilinearOracleSet F) (flushes : List Flush) (mix : F) (perms : List F)
    (oracles' : MultilinearOracleSet F) (ids : List Nat)
    (hok : makeFlushOracles oracles flushes mix perms = .ok (oracles', ids)) :
    (oracles'.oracles.take oracles.size = oracles.oracles ∧
      oracles.size ≤ oracles'.size) ∧
    (∀ (s : MultilinearOracleSet F) (fT pN pT : Nat) (nm : Option String)
        (s' : MultilinearOracleSet F) (id : Nat),
      s.addTransparent fT pN pT nm = .ok (s', id) →
      s'.oracles = s.oracles ++ [.transparent id pN pT nm]) := by
  constructor
  · obtain ⟨ext, hext⟩ := makeFlushOraclesLoopAppend mix perms 0 oracles [1] flushes
      oracles' ids hok
    constructor
    · rw [hext]
      exact List.take_left _ _
    · rw [MultilinearOracleSet.size, MultilinearOracleSet.size, hext, List.length_append]
      omega
  · intro s fT pN pT nm s' id h
    unfold MultilinearOracleSet.addTransparent at h
    split at h
    · cases h
    · simp only [MultilinearOracleSet.addToSet, RRes.ok.injEq, Prod.mk.injEq] at h
      obtain ⟨h1, h2⟩ := h
      rw [← h1, ← h2]

/-- Witness for C9 at concrete inputs: an empty flush list leaves the
graph's single committed descriptor as the prefix, and a transparent
addition appends exactly one descriptor. -/
theorem verifyEphemeralAdditionsAppendOnlyWitness :
    ((MultilinearOracleSet.mk [MultilinearPolyOracle.committed 0 1 0 none] :
        MultilinearOracleSet Int).oracles.take 1 =
      [MultilinearPolyOracle.committed 0 1 0 none] ∧
      (1 : Nat) ≤ 1) ∧
    (MultilinearOracleSet.mk
        [MultilinearPolyOracle.committed 0 1 0 none,
         MultilinearPolyOracle.transparent 1 2 0 none] :
        MultilinearOracleSet Int).oracles =
      [MultilinearPolyOracle.committed 0 1 0 none] ++
        [MultilinearPolyOracle.transparent 1 2 0 none] := by
  have h := verifyEphemeralAdditionsAppendOnly
    (MultilinearOracleSet.mk [MultilinearPolyOracle.committed 0 1 0 none] :
      MultilinearOracleSet Int) [] (2 : Int) ([3] : List Int)
    (MultilinearOracleSet.mk [MultilinearPolyOracle.committed 0 1 0 none]) []
    (by rfl)
  refine ⟨h.1, ?_⟩
  exact h.2
    (MultilinearOracleSet.mk [MultilinearPolyOracle.committed 0 1 0 none] :
      MultilinearOracleSet Int)
    7 2 0 none
    (MultilinearOracleSet.mk
      [MultilinearPolyOracle.committed 0 1 0 none,
       MultilinearPolyOracle.transparent 1 2 0 none]) 1 (by rfl)

/-! Theorems for C1: transcript interaction order of the grand-product
setup phase. -/

theorem readScalarSliceLog {n : Nat} {st st₁ : TState F} {xs : List F}
    (h : readScalarSlice n st = .ok (xs, st₁)) :
    st₁.log = st.log ++ [TEvent.readScalars n] := by
  unfold readScalarSlice at h
  split at h
  · cases h
  · simp only [RRes.ok.injEq, Prod.mk.injEq] at h
    rw [← h.2]

/-- Projection of a grand-product-setup result onto the final transcript
interaction log. -/
def setupLogOf :
    RRes Err (MultilinearOracleSet F × List Nat × List F × List F × F × List F × TState F) →
    Option (List TEvent)
  | .ok r => some r.2.2.2.2.2.2.log
  | .err _ => none
  | .panic => none

/-- C1 counterexample: the claim says the setup phase first samples the
mixing and permutation challenges, then builds the flush-mixing oracles,
and only then reads the claimed grand products for (a) the non-zero
oracles and (b) the flush oracles.  Running the embedded setup phase on a
concrete system (one committed oracle, one non-zero assertion, one flush,
`max_channel_id = 0`) produces the log
`[read 1, sample, sampleVec 1, read 1]`: the non-zero grand products are
read *before* any challenge is sampled, not after, so the claimed order
`[sample, sampleVec 1, read 1, read 1]` is wrong. -/
theorem grandProductSetupOrderCounterexample :
    setupLogOf (grandProductSetup
        (MultilinearOracleSet.mk [MultilinearPolyOracle.committed 0 1 0 none] :
          MultilinearOracleSet Int)
        [0]
        [{ oracles := [0], channelId := 0, direction := .push, count := 1,
           multiplicity := 1 }]
        0
        { proofData := [5, 7], challenges := fun _ => 3, challengeIdx := 0, log := [] })
      = some [.readScalars 1, .sample, .sampleVec 1, .readScalars 1] ∧
    ([TEvent.readScalars 1, .sample, .sampleVec 1, .readScalars 1] ≠
      [TEvent.sample, .sampleVec 1, .readScalars 1, .readScalars 1]) := by
  exact ⟨by rfl, by decide⟩

/-- C1 (amended): in the grand-product setup phase the verifier first
reads the claimed grand products for every non-zero-asserted oracle, then
samples `mixing_challenge` and one permutation challenge per channel id
`0..=max_channel_id` (including unused ids), then builds the flush-mixing
oracles, and only then reads the claimed grand products for every flush
oracle (one per flush when all flush channel ids are in range). -/
theorem grandProductSetupOrder [CommRing F] [DecidableEq F]
    (oracles : MultilinearOracleSet F) (nonZeroOracleIds : List Nat)
    (flushes : List Flush) (maxChannelId : Nat) (st : TState F)
    (oracles' : MultilinearOracleSet F) (flushIds : List Nat)
    (nzProducts flushProducts : List F) (mix : F) (perms : List F) (st' : TState F)
    (hok : grandProductSetup oracles nonZeroOracleIds flushes maxChannelId st =
      .ok (oracles', flushIds, nzProducts, flushProducts, mix, perms, st'))
    (hch : ∀ f ∈ flushes, f.channelId ≤ maxChannelId) :
    st'.log = st.log ++ [TEvent.readScalars nonZeroOracleIds.length, TEvent.sample,
      TEvent.sampleVec (maxChannelId + 1), TEvent.readScalars flushes.length] := by
  unfold grandProductSetup at hok
  cases h1 : readScalarSlice nonZeroOracleIds.length st with
  | panic => rw [h1] at hok; cases hok
  | err e => rw [h1] at hok; cases hok
  | ok pr1 =>
    obtain ⟨nz, st1⟩ := pr1
    have hlog1 := readScalarSliceLog h1
    rw [h1] at hok
    simp only [RRes.monad_bind_eq_bind, RRes.bind_ok] at hok
    split at hok
    · cases hok
    · rcases hsp : sampleOne st1 with ⟨mixv, st2⟩
      have hlog2 : st2.log = st1.log ++ [TEvent.sample] := by
        rw [show st2 = (sampleOne st1).2 from (congrArg Prod.snd hsp).symm]
        rfl
      rw [hsp] at hok
      rcases hsv : sampleVec (maxChannelId + 1) st2 with ⟨permsv, st3⟩
      have hlog3 : st3.log = st2.log ++ [TEvent.sampleVec (maxChannelId + 1)] := by
        rw [show st3 = (sampleVec (maxChannelId + 1) st2).2 from
          (congrArg Prod.snd hsv).symm]
        rfl
      have hpermlen : permsv.length = maxChannelId + 1 := by
        rw [show permsv = (sampleVec (maxChannelId + 1) st2).1 from
          (congrArg Prod.fst hsv).symm]
        simp [sampleVec]
      rw [hsv] at hok
      dsimp only at hok
      cases h2 : makeFlushOracles oracles (sortByKey (fun f => f.channelId) flushes)
          mixv permsv with
      | panic => rw [h2] at hok; cases hok
      | err e => rw [h2] at hok; cases hok
      | ok pr2 =>
        obtain ⟨os2, fids⟩ := pr2
        rw [h2] at hok
        simp only [RRes.bind_ok] at hok
        cases h3 : readScalarSlice fids.length st3 with
        | panic => rw [h3] at hok; cases hok
        | err e => rw [h3] at hok; cases hok
        | ok pr3 =>
          obtain ⟨fprod, st4⟩ := pr3
          have hlog4 := readScalarSliceLog h3
          rw [h3] at hok
          simp only [RRes.bind_ok, RRes.pure_eq_ok, RRes.ok.injEq, Prod.mk.injEq] at hok
          obtain ⟨-, hfid, -, -, -, -, hst⟩ := hok
          have hfidlen : fids.length = flushes.length := by
            have hsorted := sortByKeySorted (fun f => f.channelId) flushes
            have hhi : ∀ f ∈ sortByKey (fun f => f.channelId) flushes,
                f.channelId < permsv.length := by
              intro f hf
              have hmem : f ∈ flushes :=
                (sortByKeyPerm (fun f => f.channelId) flushes).subset hf
              have := hch f hmem
              omega
            have := (makeFlushOraclesStructure oracles
              (sortByKey (fun f => f.channelId) flushes) mixv permsv os2 fids
              hsorted hhi h2).1
            rw [this]
            exact (sortByKeyPerm (fun f => f.channelId) flushes).length_eq
          rw [← hst, hlog4, hlog3, hlog2, hlog1, hfidlen]
          simp [List.append_assoc]

/-- Witness for the amended C1 at a concrete input (the same run as the
counterexample, applied through the general theorem). -/
theorem grandProductSetupOrderWitness :
    ({ proofData := ([] : List Int), challenges := fun _ => 3, challengeIdx := 2,
       log := [TEvent.readScalars 1, .sample, .sampleVec 1, .readScalars 1] } :
        TState Int).log =
      ([] : List TEvent) ++ [TEvent.readScalars 1, TEvent.sample,
        TEvent.sampleVec 1, TEvent.readScalars 1] := by
  have h := grandProductSetupOrder
    (MultilinearOracleSet.mk [MultilinearPolyOracle.committed 0 1 0 none] :
      MultilinearOracleSet Int)
    [0]
    [{ oracles := [0], channelId := 0, direction := .push, count := 1,
       multiplicity := 1 }]
    0
    { proofData := [5, 7], challenges := fun _ => 3, challengeIdx := 0, log := [] }
    (MultilinearOracleSet.mk
      [MultilinearPolyOracle.committed 0 1 0 none,
       MultilinearPolyOracle.linearCombination 1 1 3
         [(MultilinearPolyOracle.committed 0 1 0 none, 1)]
         (some ("flush channel_id=" ++ toString 0))])
    [1] [5] [7] 3 [3]
    { proofData := [], challenges := fun _ => 3, challengeIdx := 2,
      log := [TEvent.readScalars 1, .sample, .sampleVec 1, .readScalars 1] }
    (by rfl)
    (by intro f hf; simp only [List.mem_singleton] at hf; rw [hf])
  exact h

/-! ## Theorems for C3: multiset balance of `validate_witness` -/

/-- Spec-side definition (from the specification's words, compared against
the code): the row tuple a flush produces at hypercube point `i` — the
referenced witness polynomials, each evaluated at `i`. -/
def rowOf (witness : WitnessIndex F) (f : Flush) (i : Nat) : List F :=
  ((resolveAll witness f.oracles).getD []).map (fun p => p.evals i)

/-- Spec-side definition: the net signed multiplicity that the boundary
list contributes to tuple `t` on channel `c` — `+multiplicity` per push
occurrence and `−multiplicity` per pull occurrence. -/
def specBoundaryNet [DecidableEq F] (boundaries : List (Boundary F)) (c : Nat)
    (t : List F) : Int :=
  ((boundaries.filter (fun b => b.channelId = c ∧ b.values = t)).map
    (fun b => flushDelta b.direction b.multiplicity)).sum

/-- Spec-side definition: the net signed multiplicity that the flush list
contributes to tuple `t` on channel `c`, counting every flushed row
`0 ≤ i < count` that evaluates to `t` (a flush with no oracles produces no
rows). -/
def specFlushNet [DecidableEq F] (witness : WitnessIndex F) (flushes : List Flush)
    (c : Nat) (t : List F) : Int :=
  ((flushes.filter (fun f => f.channelId = c)).map (fun f =>
    if f.oracles = [] then 0
    else (((List.range f.count).filter (fun i => rowOf witness f i = t)).length : Int) *
      flushDelta f.direction f.multiplicity)).sum

/-- Spec-side definition: the total net signed multiplicity of tuple `t`
on channel `c`, over boundaries and all flushed rows. -/
def specNet [DecidableEq F] (witness : WitnessIndex F) (flushes : List Flush)
    (boundaries : List (Boundary F)) (c : Nat) (t : List F) : Int :=
  specBoundaryNet boundaries c t + specFlushNet witness flushes c t

theorem getEntryAddEntry [DecidableEq F] (m : List (List F × Int)) (v : List F)
    (d : Int) (t : List F) :
    getEntry (addEntry m v d) t = getEntry m t + (if v = t then d else 0) := by
  induction m with
  | nil => simp [addEntry, getEntry]
  | cons e rest ih =>
    obtain ⟨k, val⟩ := e
    by_cases hk : k = v
    · subst hk
      simp only [addEntry, if_pos rfl, getEntry]
      by_cases ht : k = t
      · simp [ht]
      · simp [ht]
    · simp only [addEntry, if_neg hk, getEntry]
      by_cases ht : k = t
      · have hv : ¬ v = t := fun h => hk (h ▸ ht)
        simp [ht, hv]
      · simp [ht, ih]

theorem keysAddEntry [DecidableEq F] (m : List (List F × Int)) (v : List F) (d : Int) :
    (addEntry m v d).map Prod.fst =
      if v ∈ m.map Prod.fst then m.map Prod.fst else m.map Prod.fst ++ [v] := by
  induction m with
  | nil => simp [addEntry]
  | cons e rest ih =>
    obtain ⟨k, val⟩ := e
    by_cases hk : k = v
    · subst hk
      simp [addEntry]
    · have hk2 : ¬ v = k := fun h => hk h.symm
      by_cases hmem : v ∈ rest.map Prod.fst
      · simp [addEntry, hk, ih, hmem, hk2]
      · simp [addEntry, hk, ih, hmem, hk2]

theorem nodupKeysAddEntry [DecidableEq F] {m : List (List F × Int)} (v : List F)
    (d : Int) (h : (m.map Prod.fst).Nodup) :
    ((addEntry m v d).map Prod.fst).Nodup := by
  rw [keysAddEntry]
  by_cases hmem : v ∈ m.map Prod.fst
  · simpa [hmem] using h
  · simp only [hmem, if_neg, ite_false]
    refine List.Nodup.append h (List.nodup_singleton v) ?_
    intro a ha hav
    simp only [List.mem_singleton] at hav
    exact hmem (hav ▸ ha)

theorem getEntryOfMem [DecidableEq F] {m : List (List F × Int)}
    (h : (m.map Prod.fst).Nodup) {k : List F} {v : Int} (hm : (k, v) ∈ m) :
    getEntry m k = v := by
  induction m with
  | nil => cases hm
  | cons e rest ih =>
    obtain ⟨k0, v0⟩ := e
    simp only [List.map_cons, List.nodup_cons] at h
    rcases List.mem_cons.mp hm with he | hr
    · cases he
      simp [getEntry]
    · have hk : ¬ k0 = k := by
        intro hkk
        exact h.1 (hkk ▸ (List.mem_map.mpr ⟨(k, v), hr, rfl⟩))
      simpa [getEntry, hk] using ih h.2 hr

theorem allZeroGetEntry [DecidableEq F] (m : List (List F × Int))
    (hb : ∀ e ∈ m, e.2 = 0) (t : List F) : getEntry m t = 0 := by
  induction m with
  | nil => rfl
  | cons e rest ih =>
    obtain ⟨k, v⟩ := e
    by_cases hk : k = t
    · simpa [getEntry, hk] using hb (k, v) (List.mem_cons_self _ _)
    · have hrest := ih (fun e he => hb e (List.mem_cons_of_mem _ he))
      simpa [getEntry, hk] using hrest

theorem isBalancedIffGetEntry [DecidableEq F] {c : Channel F}
    (h : (c.multiplicities.map Prod.fst).Nodup) :
    c.isBalanced = true ↔ ∀ t, getEntry c.multiplicities t = 0 := by
  constructor
  · intro hb t
    rw [Channel.isBalanced, List.all_eq_true] at hb
    exact allZeroGetEntry c.multiplicities (fun e he => by simpa using hb e he) t
  · intro hz
    rw [Channel.isBalanced, List.all_eq_true]
    intro e he
    have := getEntryOfMem h (show (e.1, e.2) ∈ c.multiplicities by simpa using he)
    simp [this ▸ hz e.1]

/-- The channel invariant maintained through `validate_witness`: for every
channel, the multiplicity map has distinct keys, looks up to the running
net multiplicity, and the width is unset or equal to the channel's fixed
tuple width `wd c`. -/
def ChanInv [DecidableEq F] (wd : Nat → Nat) (st : Channels F)
    (net : Nat → List F → Int) : Prop :=
  ∀ c, ((st c).multiplicities.map Prod.fst).Nodup ∧
    (∀ t, getEntry (st c).multiplicities t = net c t) ∧
    ((st c).width = none ∨ (st c).width = some (wd c))

theorem chanInvCongr [DecidableEq F] {wd : Nat → Nat} {st : Channels F}
    {net net' : Nat → List F → Int} (h : ChanInv wd st net)
    (he : ∀ c t, net c t = net' c t) : ChanInv wd st net' := by
  intro c
  exact ⟨(h c).1, fun t => (he c t) ▸ (h c).2.1 t, (h c).2.2⟩

theorem channelFlushOk [DecidableEq F] {ch : Channel F} (dir : FlushDirection)
    (mult : Nat) (values : List F)
    (hwid : ch.width = none ∨ ch.width = some values.length) :
    ch.flush dir mult values =
      .ok { width := some values.length,
            multiplicities := addEntry ch.multiplicities values (flushDelta dir mult) } := by
  rcases hwid with hw | hw
  · rw [Channel.flush, hw]
  · rw [Channel.flush, hw]
    simp

theorem checkNvarsOk [DecidableEq F] (n : Nat) (ps : List (WitnessPoly F))
    (h : ∀ p ∈ ps, p.nVars = n) : checkNvars n ps = .ok () := by
  induction ps with
  | nil => rfl
  | cons p rest ih =>
    have hp := h p (List.mem_cons_self p rest)
    simp only [checkNvars, hp, ne_eq, not_true_eq_false, ite_false]
    exact ih (fun q hq => h q (List.mem_cons_of_mem p hq))

theorem resolveAllLength {witness : WitnessIndex F} {ids : List Nat}
    {ps : List (WitnessPoly F)} (h : resolveAll witness ids = some ps) :
    ps.length = ids.length := by
  induction ids generalizing ps with
  | nil => cases h; rfl
  | cons id rest ih =>
    rw [resolveAll] at h
    cases hw : witness id with
    | none => rw [hw] at h; cases h
    | some p =>
      rw [hw] at h
      cases hr : resolveAll witness rest with
      | none => rw [hr] at h; cases h
      | some ps2 =>
        rw [hr] at h
        cases h
        simp [ih hr]

theorem channelsSetSame (st : Channels F) (c : Nat) (ch : Channel F) :
    st.set c ch c = ch := by
  simp [Channels.set]

theorem channelsSetOther (st : Channels F) (c : Nat) (ch : Channel F) (c' : Nat)
    (h : c' ≠ c) : st.set c ch c' = st c' := by
  simp [Channels.set, h]

theorem applyBoundaryOk [DecidableEq F] {wd : Nat → Nat} {st : Channels F}
    {net : Nat → List F → Int} {maxChannelId : Nat} {b : Boundary F}
    (hinv : ChanInv wd st net) (hc : b.channelId ≤ maxChannelId)
    (hw : b.values.length = wd b.channelId) :
    applyBoundary maxChannelId st b = .ok (st.set b.channelId
      { width := some b.values.length,
        multiplicities := addEntry (st b.channelId).multiplicities b.values
          (flushDelta b.direction b.multiplicity) }) ∧
    ChanInv wd (st.set b.channelId
      { width := some b.values.length,
        multiplicities := addEntry (st b.channelId).multiplicities b.values
          (flushDelta b.direction b.multiplicity) })
      (fun c t => net c t + if b.channelId = c ∧ b.values = t then
        flushDelta b.direction b.multiplicity else 0) := by
  have hng : ¬ b.channelId > maxChannelId := by omega
  have hwid : (st b.channelId).width = none ∨
      (st b.channelId).width = some b.values.length := by
    rcases (hinv b.channelId).2.2 with h | h
    · exact Or.inl h
    · exact Or.inr (by rw [h, hw])
  constructor
  · rw [applyBoundary, if_neg hng,
      channelFlushOk b.direction b.multiplicity b.values hwid]
    rfl
  · intro c
    by_cases hcc : c = b.channelId
    · subst hcc
      rw [channelsSetSame]
      refine ⟨nodupKeysAddEntry _ _ (hinv b.channelId).1, ?_, Or.inr (by rw [hw])⟩
      intro t
      rw [getEntryAddEntry, (hinv b.channelId).2.1 t]
      by_cases ht : b.values = t
      · simp [ht]
      · simp [ht]
    · rw [channelsSetOther st b.channelId _ c hcc]
      refine ⟨(hinv c).1, ?_, (hinv c).2.2⟩
      intro t
      have hbc : ¬ (b.channelId = c ∧ b.values = t) := fun h => hcc h.1.symm
      simp [hbc, (hinv c).2.1 t]

theorem specBoundaryNetCons [DecidableEq F] (b : Boundary F)
    (rest : List (Boundary F)) (c : Nat) (t : List F) :
    specBoundaryNet (b :: rest) c t =
      (if b.channelId = c ∧ b.values = t then
        flushDelta b.direction b.multiplicity else 0) +
      specBoundaryNet rest c t := by
  by_cases h : b.channelId = c ∧ b.values = t
  · simp [specBoundaryNet, List.filter_cons, h]
  · simp [specBoundaryNet, List.filter_cons, h]

theorem applyBoundaryFoldOk [DecidableEq F] {wd : Nat → Nat} {maxChannelId : Nat}
    (boundaries : List (Boundary F)) (st : Channels F) (net : Nat → List F → Int)
    (hinv : ChanInv wd st net)
    (hb : ∀ b ∈ boundaries, b.channelId ≤ maxChannelId ∧
      b.values.length = wd b.channelId) :
    ∃ st', boundaries.foldlM (applyBoundary maxChannelId) st = .ok st' ∧
      ChanInv wd st' (fun c t => net c t + specBoundaryNet boundaries c t) := by
  induction boundaries generalizing st net with
  | nil =>
    refine ⟨st, rfl, chanInvCongr hinv ?_⟩
    intro c t
    simp [specBoundaryNet]
  | cons b rest ih =>
    obtain ⟨hc, hw⟩ := hb b (List.mem_cons_self _ _)
    obtain ⟨hstep, hinv1⟩ := applyBoundaryOk hinv hc hw
    obtain ⟨st', hst', hinv'⟩ :=
      ih _ _ hinv1 (fun b2 hb2 => hb b2 (List.mem_cons_of_mem _ hb2))
    refine ⟨st', ?_, chanInvCongr hinv' ?_⟩
    · rw [List.foldlM_cons, hstep]
      simpa using hst'
    · intro c t
      rw [specBoundaryNetCons]
      ring

theorem foldRowsAux [DecidableEq F] (dir : FlushDirection) (mult : Nat)
    (polys : List (WitnessPoly F)) (is : List Nat) (ch : Channel F)
    (hk : (ch.multiplicities.map Prod.fst).Nodup)
    (hwid : ch.width = none ∨ ch.width = some polys.length) :
    ∃ ch', is.foldlM
        (fun c i => c.flush dir mult (polys.map (fun p => p.evals i))) ch = .ok ch' ∧
      (ch'.multiplicities.map Prod.fst).Nodup ∧
      (ch'.width = none ∨ ch'.width = some polys.length) ∧
      ∀ t, getEntry ch'.multiplicities t = getEntry ch.multiplicities t +
        ((is.filter (fun i => polys.map (fun p => p.evals i) = t)).length : Int) *
          flushDelta dir mult := by
  induction is generalizing ch with
  | nil => exact ⟨ch, rfl, hk, hwid, by simp⟩
  | cons i rest ih =>
    have hlen : (polys.map (fun p => p.evals i)).length = polys.length :=
      List.length_map _ _
    have hfl := channelFlushOk dir mult (polys.map (fun p => p.evals i))
      (by rw [hlen]; exact hwid)
    obtain ⟨ch', hch', hk', hwid', hge⟩ := ih
      { width := some (polys.map (fun p => p.evals i)).length,
        multiplicities := addEntry ch.multiplicities
          (polys.map (fun p => p.evals i)) (flushDelta dir mult) }
      (nodupKeysAddEntry _ _ hk) (Or.inr (by rw [hlen]))
    refine ⟨ch', ?_, hk', hwid', ?_⟩
    · rw [List.foldlM_cons, hfl]
      simpa using hch'
    · intro t
      rw [hge t, getEntryAddEntry]
      by_cases hr : polys.map (fun p => p.evals i) = t
      · simp only [List.filter_cons, hr, decide_eq_true_eq, ite_true, if_pos,
          List.length_cons]
        push_cast
        ring
      · simp [List.filter_cons, hr]

theorem applyFlushOk [DecidableEq F] {wd : Nat → Nat} {nv : Flush → Nat} {witness : WitnessIndex F}
    {maxChannelId : Nat} {st : Channels F} {net : Nat → List F → Int} {f : Flush}
    (hinv : ChanInv wd st net) (hc : f.channelId ≤ maxChannelId)
    (hres : ∃ polys, resolveAll witness f.oracles = some polys ∧
      ∀ p ∈ polys, p.nVars = nv f)
    (hcount : f.count ≤ 2 ^ nv f)
    (hw : f.oracles ≠ [] → f.oracles.length = wd f.channelId) :
    ∃ st', applyFlush witness maxChannelId st f = .ok st' ∧
      ChanInv wd st' (fun c t => net c t + (if f.channelId = c then
        (if f.oracles = [] then 0 else
          (((List.range f.count).filter (fun i => rowOf witness f i = t)).length : Int) *
            flushDelta f.direction f.multiplicity) else 0)) := by
  have hng : ¬ f.channelId > maxChannelId := by omega
  obtain ⟨polys, hpolys, hnv⟩ := hres
  cases polys with
  | nil =>
    have h0 : f.oracles.length = 0 := by simpa using (resolveAllLength hpolys).symm
    have hor : f.oracles = [] := List.length_eq_zero.mp h0
    refine ⟨st, ?_, chanInvCongr hinv ?_⟩
    · unfold applyFlush
      rw [if_neg hng, hpolys]
    · intro c t
      simp [hor]
  | cons p ps =>
    cases ho : f.oracles with
    | nil =>
      rw [ho] at hpolys
      simp [resolveAll] at hpolys
    | cons oid oids =>
      have hone : f.oracles ≠ [] := by rw [ho]; simp
      have hwcl : (p :: ps).length = wd f.channelId := by
        rw [resolveAllLength hpolys]
        exact hw hone
      have hnvp : p.nVars = nv f := hnv p (List.mem_cons_self _ _)
      have hcn := checkNvarsOk p.nVars ps
        (fun q hq => by rw [hnv q (List.mem_cons_of_mem _ hq), hnvp])
      have hcnt : ¬ f.count > 2 ^ p.nVars := by rw [hnvp]; omega
      have hwid0 : (st f.channelId).width = none ∨
          (st f.channelId).width = some (p :: ps).length := by
        rcases (hinv f.channelId).2.2 with h | h
        · exact Or.inl h
        · exact Or.inr (by rw [h, hwcl])
      obtain ⟨ch', hch', hk', hwid', hge⟩ := foldRowsAux f.direction f.multiplicity
        (p :: ps) (List.range f.count) (st f.channelId) (hinv f.channelId).1 hwid0
      refine ⟨st.set f.channelId ch', ?_, ?_⟩
      · unfold applyFlush
        rw [if_neg hng, hpolys, ho]
        dsimp only
        rw [hcn]
        simp only [RRes.monad_bind_eq_bind, RRes.bind_ok, if_neg hcnt]
        unfold flushRows
        rw [hch']
        rfl
      · intro c
        by_cases hcc : c = f.channelId
        · subst hcc
          rw [channelsSetSame]
          refine ⟨hk', ?_, ?_⟩
          · intro t
            dsimp only
            have hfil : ((List.range f.count).filter
                  (fun i => rowOf witness f i = t)) =
                ((List.range f.count).filter
                  (fun i => (p :: ps).map (fun q => q.evals i) = t)) := by
              simp only [rowOf, hpolys, Option.getD_some]
            rw [if_pos rfl, if_neg (List.cons_ne_nil oid oids), hfil, hge t,
              (hinv f.channelId).2.1 t]
          · rcases hwid' with h | h
            · exact Or.inl h
            · exact Or.inr (by rw [h, hwcl])
        · rw [channelsSetOther st f.channelId _ c hcc]
          refine ⟨(hinv c).1, ?_, (hinv c).2.2⟩
          intro t
          have hfc2 : ¬ f.channelId = c := fun h => hcc h.symm
          simp [hfc2, (hinv c).2.1 t]

theorem specFlushNetCons [DecidableEq F] (witness : WitnessIndex F) (f : Flush)
    (rest : List Flush) (c : Nat) (t : List F) :
    specFlushNet witness (f :: rest) c t =
      (if f.channelId = c then (if f.oracles = [] then 0 else
        (((List.range f.count).filter (fun i => rowOf witness f i = t)).length : Int) *
          flushDelta f.direction f.multiplicity) else 0) +
      specFlushNet witness rest c t := by
  by_cases h : f.channelId = c
  · simp [specFlushNet, List.filter_cons, h]
  · simp [specFlushNet, List.filter_cons, h]

theorem applyFlushFoldOk [DecidableEq F] {wd : Nat → Nat} {nv : Flush → Nat}
    {witness : WitnessIndex F} {maxChannelId : Nat}
    (flushes : List Flush) (st : Channels F) (net : Nat → List F → Int)
    (hinv : ChanInv wd st net)
    (hf : ∀ f ∈ flushes, f.channelId ≤ maxChannelId ∧ f.count ≤ 2 ^ nv f ∧
      (f.oracles ≠ [] → f.oracles.length = wd f.channelId) ∧
      ∃ polys, resolveAll witness f.oracles = some polys ∧
        ∀ p ∈ polys, p.nVars = nv f) :
    ∃ st', flushes.foldlM (applyFlush witness maxChannelId) st = .ok st' ∧
      ChanInv wd st' (fun c t => net c t + specFlushNet witness flushes c t) := by
  induction flushes generalizing st net with
  | nil =>
    refine ⟨st, rfl, chanInvCongr hinv ?_⟩
    intro c t
    simp [specFlushNet]
  | cons f rest ih =>
    obtain ⟨hc, hcount, hw, hres⟩ := hf f (List.mem_cons_self _ _)
    obtain ⟨st1, hstep, hinv1⟩ := applyFlushOk hinv hc hres hcount hw
    obtain ⟨st', hst', hinv'⟩ :=
      ih _ _ hinv1 (fun f2 hf2 => hf f2 (List.mem_cons_of_mem _ hf2))
    refine ⟨st', ?_, chanInvCongr hinv' ?_⟩
    · rw [List.foldlM_cons, hstep]
      simpa using hst'
    · intro c t
      rw [specFlushNetCons]
      ring

theorem checkBalancedChar [DecidableEq F] {wd : Nat → Nat} {st : Channels F}
    {net : Nat → List F → Int} (hinv : ChanInv wd st net) (ids : List Nat) :
    (checkBalanced st ids = .ok () ↔ ∀ c ∈ ids, ∀ t, net c t = 0) ∧
    (∀ e, checkBalanced st ids = .err e →
      ∃ c ∈ ids, e = Err.channelUnbalanced c ∧ ∃ t, net c t ≠ 0) ∧
    checkBalanced st ids ≠ .panic := by
  induction ids with
  | nil =>
    refine ⟨by simp [checkBalanced], ?_, by simp [checkBalanced]⟩
    intro e h
    rw [checkBalanced] at h
    cases h
  | cons id rest ih =>
    have hiff : (st id).isBalanced = true ↔ ∀ t, net id t = 0 := by
      rw [isBalancedIffGetEntry (hinv id).1]
      exact forall_congr' (fun t => by rw [(hinv id).2.1 t])
    by_cases hbal : (st id).isBalanced = true
    · have hstep : checkBalanced st (id :: rest) = checkBalanced st rest := by
        rw [checkBalanced, if_pos hbal]
      refine ⟨?_, ?_, by rw [hstep]; exact ih.2.2⟩
      · rw [hstep, ih.1]
        constructor
        · intro h c hm
          rcases List.mem_cons.mp hm with hc | hc
          · exact hc ▸ hiff.mp hbal
          · exact h c hc
        · intro h c hc
          exact h c (List.mem_cons_of_mem _ hc)
      · intro e h
        rw [hstep] at h
        obtain ⟨c, hc, he, ht⟩ := ih.2.1 e h
        exact ⟨c, List.mem_cons_of_mem _ hc, he, ht⟩
    · have hstep : checkBalanced st (id :: rest) = .err (.channelUnbalanced id) := by
        rw [checkBalanced, if_neg hbal]
      have hun : ∃ t, net id t ≠ 0 := by
        by_contra hno
        push_neg at hno
        exact hbal (hiff.mpr hno)
      refine ⟨?_, ?_, by rw [hstep]; exact fun h => by cases h⟩
      · rw [hstep]
        constructor
        · intro h
          cases h
        · intro h
          obtain ⟨t, ht⟩ := hun
          exact absurd (h id (List.mem_cons_self _ _) t) ht
      · intro e h
        rw [hstep] at h
        cases h
        exact ⟨id, List.mem_cons_self _ _, rfl, hun⟩

/-- C3: under the per-flush preconditions (in-range channel ids, flushed
oracles resolvable in the witness and agreeing on n_vars, counts within the
hypercube domain, per-channel tuple widths consistent with a width
assignment `wd`), `validate_witness` succeeds iff for every channel id in
`0..=max_channel_id` every distinct row tuple has net signed multiplicity
zero (`+multiplicity` per push occurrence, `−multiplicity` per pull
occurrence, over boundaries and all flushed rows); every failure is a
channel-unbalanced error naming a channel that has a tuple with non-zero
net multiplicity, and it never panics. -/
theorem validateWitnessBalanceCharacterization [DecidableEq F]
    (witness : WitnessIndex F) (flushes : List Flush)
    (boundaries : List (Boundary F)) (maxChannelId : Nat)
    (wd : Nat → Nat) (nv : Flush → Nat)
    (hb : ∀ b ∈ boundaries, b.channelId ≤ maxChannelId ∧
      b.values.length = wd b.channelId)
    (hf : ∀ f ∈ flushes, f.channelId ≤ maxChannelId ∧ f.count ≤ 2 ^ nv f ∧
      (f.oracles ≠ [] → f.oracles.length = wd f.channelId) ∧
      ∃ polys, resolveAll witness f.oracles = some polys ∧
        ∀ p ∈ polys, p.nVars = nv f) :
    (validateWitness witness flushes boundaries maxChannelId = .ok () ↔
      ∀ c ≤ maxChannelId, ∀ t, specNet witness flushes boundaries c t = 0) ∧
    (∀ e, validateWitness witness flushes boundaries maxChannelId = .err e →
      ∃ c, c ≤ maxChannelId ∧ e = Err.channelUnbalanced c ∧
        ∃ t, specNet witness flushes boundaries c t ≠ 0) ∧
    validateWitness witness flushes boundaries maxChannelId ≠ .panic := by
  have hinv0 : ChanInv (F := F) wd Channels.init (fun _ _ => 0) := by
    intro c
    exact ⟨by simp [Channels.init], fun t => rfl, Or.inl rfl⟩
  obtain ⟨stB, hstB, hinvB⟩ :=
    applyBoundaryFoldOk boundaries Channels.init _ hinv0 hb
  obtain ⟨stF, hstF, hinvF⟩ := applyFlushFoldOk flushes stB _ hinvB hf
  have hinv' : ChanInv wd stF
      (fun c t => specNet witness flushes boundaries c t) := by
    refine chanInvCongr hinvF ?_
    intro c t
    simp [specNet]
  have hvw : validateWitness witness flushes boundaries maxChannelId =
      checkBalanced stF (List.range (maxChannelId + 1)) := by
    unfold validateWitness
    rw [hstB]
    simp only [RRes.monad_bind_eq_bind, RRes.bind_ok]
    rw [hstF]
    simp only [RRes.bind_ok]
  obtain ⟨hok, herr, hpanic⟩ := checkBalancedChar hinv' (List.range (maxChannelId + 1))
  have hmem : ∀ c, c ∈ List.range (maxChannelId + 1) ↔ c ≤ maxChannelId := by
    intro c
    rw [List.mem_range]
    omega
  refine ⟨?_, ?_, ?_⟩
  · rw [hvw, hok]
    constructor
    · intro h c hc t
      exact h c ((hmem c).mpr hc) t
    · intro h c hc t
      exact h c ((hmem c).mp hc) t
  · intro e he
    rw [hvw] at he
    obtain ⟨c, hc, hee, ht⟩ := herr e he
    exact ⟨c, (hmem c).mp hc, hee, ht⟩
  · rw [hvw]
    exact hpanic

/-- Witness for C3 at a concrete balanced instance over `Int`: one channel,
a pull boundary of the tuple `[5]` and a push flush of an oracle whose
single hypercube evaluation is `5`. -/
theorem validateWitnessBalanceCharacterizationWitness :
    validateWitness
      (fun id => if id = 0 then some ⟨0, fun _ => (5 : Int)⟩ else none)
      [{ oracles := [0], channelId := 0, direction := .push, count := 1,
         multiplicity := 1 }]
      [{ values := [(5 : Int)], channelId := 0, direction := .pull,
         multiplicity := 1 }]
      0 = .ok () := by
  have h := validateWitnessBalanceCharacterization
    (fun id => if id = 0 then some ⟨0, fun _ => (5 : Int)⟩ else none)
    [{ oracles := [0], channelId := 0, direction := .push, count := 1,
       multiplicity := 1 }]
    [{ values := [(5 : Int)], channelId := 0, direction := .pull,
       multiplicity := 1 }]
    0 (fun _ => 1) (fun _ => 0)
    (by intro b hb; simp only [List.mem_singleton] at hb; subst hb; exact ⟨by decide, rfl⟩)
    (by
      intro f hf
      simp only [List.mem_singleton] at hf
      subst hf
      refine ⟨by decide, by decide, fun _ => rfl, ⟨[⟨0, fun _ => (5 : Int)⟩], rfl, ?_⟩⟩
      intro p hp
      simp only [List.mem_singleton] at hp
      subst hp
      rfl)
  refine h.1.mpr ?_
  intro c hc t
  have hc0 : c = 0 := Nat.le_zero.mp hc
  subst hc0
  by_cases ht : ([5] : List Int) = t
  · simp [specNet, specBoundaryNet, specFlushNet, rowOf, resolveAll, flushDelta, ht]
  · simp [specNet, specBoundaryNet, specFlushNet, rowOf, resolveAll, flushDelta, ht]

/-! ## Theorems for C8: replay order and error conditions of `validate_witness` -/

theorem rresFoldlMAppend (g : β → α → RRes ε β) (l₁ l₂ : List α) (b : β) :
    (l₁ ++ l₂).foldlM g b = (l₁.foldlM g b) >>= fun b2 => l₂.foldlM g b2 := by
  induction l₁ generalizing b with
  | nil => simp
  | cons a t ih =>
    rw [List.cons_append, List.foldlM_cons, List.foldlM_cons]
    cases g b a with
    | panic => simp
    | err e => simp
    | ok b2 => simpa using ih b2

theorem checkNvarsErr [DecidableEq F] (n : Nat) (ps : List (WitnessPoly F))
    (h : ∃ q ∈ ps, q.nVars ≠ n) :
    ∃ got, got ≠ n ∧ checkNvars n ps = .err (.channelFlushNvarsMismatch n got) := by
  induction ps with
  | nil => simp at h
  | cons q rest ih =>
    by_cases hq : q.nVars = n
    · have h2 : ∃ r ∈ rest, r.nVars ≠ n := by
        obtain ⟨r, hr, hrn⟩ := h
        rcases List.mem_cons.mp hr with he | hm
        · exact absurd (he ▸ hq) hrn
        · exact ⟨r, hm, hrn⟩
      obtain ⟨got, hg, hck⟩ := ih h2
      refine ⟨got, hg, ?_⟩
      simp only [checkNvars]
      rw [if_neg (fun hne => hne hq)]
      exact hck
    · refine ⟨q.nVars, hq, ?_⟩
      simp only [checkNvars]
      rw [if_pos hq]

theorem channelFlushWidthErr [DecidableEq F] {c : Channel F} {w : Nat}
    (hw : c.width = some w) (dir : FlushDirection) (mult : Nat) (values : List F)
    (hne : w ≠ values.length) :
    c.flush dir mult values = .err (.channelFlushWidthMismatch w values.length) := by
  rw [Channel.flush, hw]
  simp [hne]

theorem validateWitnessErrAt [DecidableEq F] {witness : WitnessIndex F}
    {maxChannelId : Nat} {boundaries : List (Boundary F)} {pre rest : List Flush}
    {f : Flush} {stB stP : Channels F} {e : Err}
    (hB : boundaries.foldlM (applyBoundary maxChannelId) Channels.init = .ok stB)
    (hP : pre.foldlM (applyFlush witness maxChannelId) stB = .ok stP)
    (he : applyFlush witness maxChannelId stP f = .err e) :
    validateWitness witness (pre ++ f :: rest) boundaries maxChannelId = .err e := by
  unfold validateWitness
  rw [hB]
  simp only [RRes.monad_bind_eq_bind, RRes.bind_ok]
  rw [rresFoldlMAppend, hP]
  simp only [RRes.monad_bind_eq_bind, RRes.bind_ok]
  rw [List.foldlM_cons, he]
  simp

/-- C8: in `validate_witness` the boundaries are folded into the channel
states before any flush is replayed; a flush is replayed by evaluating its
referenced oracles at hypercube points `0..count`.  Given the channel
states `stB` after the boundary fold and `stP` after the earlier flushes,
the next flush `f` fails with an n_vars-mismatch error when its resolved
polynomials disagree on n_vars, with a count-exceeds error when `count`
exceeds `2 ^ n_vars`, and — demonstrating that the tuple width is fixed by
the first boundary/flush tuple of the channel — with a width-mismatch
error against the already-fixed width `w` when its rows have a different
width. -/
theorem validateWitnessReplayErrors [DecidableEq F]
    (witness : WitnessIndex F) (pre rest : List Flush) (f : Flush)
    (boundaries : List (Boundary F)) (maxChannelId : Nat)
    (stB stP : Channels F) (p : WitnessPoly F) (ps : List (WitnessPoly F))
    (oid : Nat) (oids : List Nat)
    (hB : boundaries.foldlM (applyBoundary maxChannelId) Channels.init = .ok stB)
    (hP : pre.foldlM (applyFlush witness maxChannelId) stB = .ok stP)
    (hc : f.channelId ≤ maxChannelId)
    (ho : f.oracles = oid :: oids)
    (hres : resolveAll witness f.oracles = some (p :: ps)) :
    ((∃ q ∈ ps, q.nVars ≠ p.nVars) →
      ∃ got, got ≠ p.nVars ∧
        validateWitness witness (pre ++ f :: rest) boundaries maxChannelId =
          .err (.channelFlushNvarsMismatch p.nVars got)) ∧
    ((∀ q ∈ ps, q.nVars = p.nVars) → 2 ^ p.nVars < f.count →
      validateWitness witness (pre ++ f :: rest) boundaries maxChannelId =
        .err (.flushCountExceedsOracleSize oid f.count)) ∧
    (∀ w, (∀ q ∈ ps, q.nVars = p.nVars) → f.count ≤ 2 ^ p.nVars → 0 < f.count →
      (stP f.channelId).width = some w → w ≠ f.oracles.length →
      validateWitness witness (pre ++ f :: rest) boundaries maxChannelId =
        .err (.channelFlushWidthMismatch w f.oracles.length)) := by
  have hng : ¬ f.channelId > maxChannelId := by omega
  refine ⟨?_, ?_, ?_⟩
  · intro h1
    obtain ⟨got, hg, hck⟩ := checkNvarsErr p.nVars ps h1
    refine ⟨got, hg, validateWitnessErrAt hB hP ?_⟩
    unfold applyFlush
    rw [if_neg hng, hres, ho]
    dsimp only
    rw [hck]
    rfl
  · intro hnvs hgt
    refine validateWitnessErrAt hB hP ?_
    unfold applyFlush
    rw [if_neg hng, hres, ho]
    dsimp only
    rw [checkNvarsOk p.nVars ps hnvs]
    simp only [RRes.monad_bind_eq_bind, RRes.bind_ok]
    rw [if_pos hgt]
  · intro w hnvs hle hcnt hww hne
    refine validateWitnessErrAt hB hP ?_
    unfold applyFlush
    rw [if_neg hng, hres, ho]
    dsimp only
    rw [checkNvarsOk p.nVars ps hnvs]
    simp only [RRes.monad_bind_eq_bind, RRes.bind_ok]
    rw [if_neg (by omega : ¬ f.count > 2 ^ p.nVars)]
    unfold flushRows
    obtain ⟨k, hk⟩ : ∃ k, f.count = k + 1 := ⟨f.count - 1, by omega⟩
    have hlen2 : ((p :: ps).map (fun q => q.evals 0)).length = f.oracles.length := by
      rw [List.length_map, resolveAllLength hres]
    have hfe := channelFlushWidthErr hww f.direction f.multiplicity
      ((p :: ps).map (fun q => q.evals 0)) (by rw [hlen2]; exact hne)
    rw [hk, List.range_succ_eq_map, List.foldlM_cons, hfe]
    simp only [RRes.monad_bind_eq_bind, RRes.bind_err]
    rw [hlen2, ho]

/-- Witness for C8 at a concrete input over `Int`, exercising the
width-mismatch conjunct: a push boundary of the pair `[7, 8]` fixes
channel 0's tuple width to 2 before any flush is replayed, so the first
flush — whose single-oracle rows have width 1 — fails against the
boundary-established width. -/
theorem validateWitnessReplayErrorsWitness :
    validateWitness
      (fun id => if id = 0 then some ⟨0, fun _ => (5 : Int)⟩ else none)
      [{ oracles := [0], channelId := 0, direction := .push, count := 1,
         multiplicity := 1 }]
      [{ values := [(7 : Int), 8], channelId := 0, direction := .push,
         multiplicity := 1 }]
      0 = .err (.channelFlushWidthMismatch 2 1) := by
  have h := validateWitnessReplayErrors
    (fun id => if id = 0 then some ⟨0, fun _ => (5 : Int)⟩ else none)
    [] []
    { oracles := [0], channelId := 0, direction := .push, count := 1,
      multiplicity := 1 }
    [{ values := [(7 : Int), 8], channelId := 0, direction := .push,
       multiplicity := 1 }]
    0
    (Channels.set Channels.init 0 { width := some 2, multiplicities := [([7, 8], 1)] })
    (Channels.set Channels.init 0 { width := some 2, multiplicities := [([7, 8], 1)] })
    ⟨0, fun _ => (5 : Int)⟩ [] 0 []
    (by rfl) (by rfl) (by decide) (by rfl) (by rfl)
  exact h.2.2 2 (by intro q hq; cases hq) (by decide) (by decide) (by rfl) (by decide)

end Binius
